import Mathlib

set_option maxRecDepth 10000

/-!
Verification development for the "Explain Anything" browser extension core:
streaming request orchestration, provider adapters, error classification,
text-direction detection and the markdown renderer, shallowly embedded
from the JavaScript sources (src/content/content.js,
src/background/service-worker.js, src/providers/openrouter.js, the Gemini
provider module).

Numbers: the JavaScript sources only compare small integer counters
(word counts, string lengths) and exact rational prices, so machine floats
are modelled by Nat and Rat with the exact comparisons the code performs.
-/

namespace ExplainAnything

/-! ## Character classes used by the content script regexes -/

/-- decide a closed interval on Nat as a Bool -/
def between (lo hi n : Nat) : Bool := decide (lo ≤ n ∧ n ≤ hi)

/-- JavaScript regex class \s (ECMAScript WhiteSpace plus LineTerminator),
also the character set removed by String.trim. -/
def isJsSpace (c : Char) : Bool :=
  let n := c.toNat
  n == 9 || n == 10 || n == 11 || n == 12 || n == 13 || n == 32 ||
  n == 0xA0 || n == 0x1680 || between 0x2000 0x200A n ||
  n == 0x2028 || n == 0x2029 || n == 0x202F || n == 0x205F ||
  n == 0x3000 || n == 0xFEFF

/-- ECMAScript LineTerminator characters: the characters NOT matched by
an un-flagged dot in a JavaScript regex, and the line boundaries of the
multiline anchors. -/
def isLineTermChar (c : Char) : Bool :=
  c == '\n' || c == '\r' || c.toNat == 0x2028 || c.toNat == 0x2029

/-- content.js isRTLWord: the class
[֑-߿‏‫‮יִ-﷽ﹰ-ﻼ]. -/
def isRTLChar (c : Char) : Bool :=
  let n := c.toNat
  between 0x591 0x7FF n || n == 0x200F || n == 0x202B || n == 0x202E ||
  between 0xFB1D 0xFDFD n || between 0xFE70 0xFEFC n

/-- content.js isRTLWord(word): rtlPattern.test(word). -/
def isRTLWord (w : List Char) : Bool := w.any isRTLChar

/-- the test /[A-Za-z]/ applied to one word in detectTextDirection. -/
def hasLatinLetter (w : List Char) : Bool :=
  w.any (fun c => between 65 90 c.toNat || between 97 122 c.toNat)

/-- the separator class of the word split in detectTextDirection:
[\s\.,;:!?\-\(\)\[\]\x7b\x7d'"<>\/\\]  (39 is the apostrophe code,
123 and 125 the brace codes). -/
def isSepChar (c : Char) : Bool :=
  isJsSpace c || c == '.' || c == ',' || c == ';' || c == ':' || c == '!' ||
  c == '?' || c == '-' || c == '(' || c == ')' || c == '[' || c == ']' ||
  c.toNat == 123 || c.toNat == 125 || c.toNat == 39 || c == '"' ||
  c == '<' || c == '>' || c == '/' || c == '\\'

/-! ## Text direction detection (content.js detectTextDirection) -/

/-- text.split(separators+).filter(w => w.length > 0): the maximal runs of
non-separator characters.  Structural recursion on an explicit fuel so the
kernel can evaluate it (fuel = length of the list always suffices). -/
def splitWordsF : Nat → List Char → List (List Char)
  | 0, _ => []
  | _ + 1, [] => []
  | fuel + 1, c :: rest =>
    if isSepChar c then splitWordsF fuel rest
    else
      (c :: rest.takeWhile (fun d => !isSepChar d)) ::
        splitWordsF fuel (rest.dropWhile (fun d => !isSepChar d))

def splitWords (l : List Char) : List (List Char) := splitWordsF l.length l

/-- the words.forEach counting loop of detectTextDirection:
first component counts RTL words, second counts words that are not RTL
but contain a Latin letter; other words are not counted. -/
def countDirWords : List (List Char) → Nat × Nat
  | [] => (0, 0)
  | w :: ws =>
    let p := countDirWords ws
    if isRTLWord w then (p.1 + 1, p.2)
    else if hasLatinLetter w then (p.1, p.2 + 1)
    else p

inductive TextDir
  | ltr
  | rtl
deriving DecidableEq, Repr

/-- content.js detectTextDirection.  The source compares
rtlWordCount / totalDirectionalWords > 0.5 on floats; for these integer
counters that comparison is exactly 2 * rtl > total, which is how it is
embedded here. -/
def detectTextDirection (s : String) : TextDir :=
  if s = "" then .ltr
  else
    let words := splitWords s.data
    if words = [] then .ltr
    else
      let c := countDirWords words
      let total := c.1 + c.2
      if total = 0 then .ltr
      else if 2 * c.1 > total then .rtl else .ltr

/-- Spec-side reading (for claim C3): the words that contain an RTL-script
character. -/
def rtlWordsOf (s : String) : List (List Char) :=
  (splitWords s.data).filter isRTLWord

/-- Spec-side reading (for claim C3): the counted (directional) words:
those containing an RTL-script character or a Latin letter. -/
def directionalWordsOf (s : String) : List (List Char) :=
  (splitWords s.data).filter (fun w => isRTLWord w || hasLatinLetter w)

/-! ## Error classifier (content.js parseError) -/

structure ClassifiedError where
  cause : String
  message : String
deriving DecidableEq, Repr

/-- A structured error object; each field is `some s` when the JavaScript
value has that field holding a string, `none` when the field is absent or
not a string (both behave identically in parseError). -/
structure ErrObj where
  cause : Option String
  code : Option String
  message : Option String
  error : Option String
deriving DecidableEq, Repr

inductive ErrorInput
  | absent
  | txt (s : String)
  | obj (o : ErrObj)

/-- JavaScript String.prototype.trim. -/
def jsTrimL (l : List Char) : List Char :=
  ((l.dropWhile isJsSpace).reverse.dropWhile isJsSpace).reverse

def jsTrim (s : String) : String := ⟨jsTrimL s.data⟩

def lbraceS : String := String.singleton (Char.ofNat 123)
def rbraceS : String := String.singleton (Char.ofNat 125)

/-- minimal JSON string escaping (backslash, quote, newline variants). -/
def jsonEscapeChar (c : Char) : String :=
  if c = '\\' then "\\\\"
  else if c = '"' then "\\\""
  else if c = '\n' then "\\n"
  else if c = '\r' then "\\r"
  else if c = '\t' then "\\t"
  else String.singleton c

def jsonEscape (s : String) : String := String.join (s.data.map jsonEscapeChar)

/-- models JSON.stringify on the structured error object (fields in
declaration order, absent fields omitted). -/
def jsonStringify (o : ErrObj) : String :=
  let field := fun (k : String) (v : Option String) =>
    match v with
    | some s => ["\"" ++ k ++ "\":\"" ++ jsonEscape s ++ "\""]
    | none => []
  let fields := field "cause" o.cause ++ field "code" o.code ++
    field "message" o.message ++ field "error" o.error
  lbraceS ++ String.intercalate "," fields ++ rbraceS

def defaultClassifiedError : ClassifiedError :=
  ⟨"Unknown error", "An unexpected error occurred."⟩

/-- the structured branch of parseError (typeof errorText === 'object'). -/
def parseErrorObj (o : ErrObj) : ClassifiedError :=
  let cause :=
    match o.cause with
    | some c => jsTrim c
    | none =>
      match o.code with
      | some c => jsTrim c
      | none => "Error"
  let message :=
    match o.message with
    | some m => jsTrim m
    | none =>
      match o.error with
      | some e => jsTrim e
      | none => jsonStringify o
  ⟨if cause = "" then "Error" else cause,
   if message = "" then defaultClassifiedError.message else message⟩

/-- does a list start with the given needle -/
def startsWithL : List Char → List Char → Bool
  | [], _ => true
  | _ :: _, [] => false
  | n :: ns, h :: hs => n == h && startsWithL ns hs

/-- substring containment, models String.prototype.includes. -/
def containsSub (needle : List Char) : List Char → Bool
  | [] => needle.isEmpty
  | c :: rest => startsWithL needle (c :: rest) || containsSub needle rest

/-- models text.toLowerCase() for the ASCII keyword comparisons of
parseError (simple one-to-one case mapping). -/
def toLowerL (l : List Char) : List Char := l.map Char.toLower

/-- the keyword fallback table of parseError, checked in source order. -/
def inferCause (t : String) : String :=
  let low := toLowerL t.data
  if containsSub "api key".data low then "API Key Error"
  else if containsSub "network".data low || containsSub "connection".data low then
    "Network Error"
  else if containsSub "rate limit".data low then "Rate Limit"
  else if containsSub "timeout".data low then "Timeout"
  else if containsSub "invalid".data low then "Invalid Request"
  else "Error"

/-- is a list nonempty and free of line terminators: what (.+)$ can match
at the end of the input in an un-flagged JavaScript regex. -/
def dotRun (l : List Char) : Bool := !l.isEmpty && l.all (fun c => !isLineTermChar c)

/-- backtracking search for \s* (minW = 0) or \s+ (minW = 1) followed by
(.+)$ : try consuming j whitespace characters, largest first, and return
the remainder accepted by (.+)$. -/
def wsRestSearch (l : List Char) (minW : Nat) : Nat → Option (List Char)
  | 0 =>
    if 0 < minW then none
    else if dotRun l then some l else none
  | j + 1 =>
    if j + 1 < minW then none
    else if dotRun (l.drop (j + 1)) then some (l.drop (j + 1))
    else wsRestSearch l minW j

/-- match \s*(.+)$ (minW = 0) or \s+(.+)$ (minW = 1) against l, returning
the (.+) group. -/
def wsThenRest (minW : Nat) (l : List Char) : Option (List Char) :=
  let k := (l.takeWhile isJsSpace).length
  if k < minW then none else wsRestSearch l minW k

/-- the colon rule of parseError: /^([^:]+):\s*(.+)$/ .  The group [^:]+
necessarily ends at the first colon; the regex matches only when that colon
is not the first character and the remainder fits \s*(.+)$. -/
def colonSplit (l : List Char) : Option (List Char × List Char) :=
  let before := l.takeWhile (fun c => c ≠ ':')
  match l.drop before.length with
  | [] => none
  | _ :: after =>
    if before = [] then none
    else
      match wsThenRest 0 after with
      | some r => some (before, r)
      | none => none

/-- the lazy [^.]*? loop of the sentence rule: grow the middle group one
non-period character at a time, trying \s+(.+)$ at each point. -/
def periodScan (g1base : List Char) : List Char → List Char → Option (List Char × List Char)
  | mid, rem =>
    match wsThenRest 1 rem with
    | some r => some (g1base ++ '.' :: mid, r)
    | none =>
      match rem with
      | [] => none
      | c :: rest => if c = '.' then none else periodScan g1base (mid ++ [c]) rest

/-- the sentence rule of parseError: /^([^.]+\.[^.]*?)\s+(.+)$/ .
[^.]+ necessarily ends at the first period. -/
def periodSplit (l : List Char) : Option (List Char × List Char) :=
  let before := l.takeWhile (fun c => c ≠ '.')
  match l.drop before.length with
  | [] => none
  | _ :: after =>
    if before = [] then none
    else periodScan before [] after

/-- content.js parseError. -/
def parseError : ErrorInput → ClassifiedError
  | .absent => defaultClassifiedError
  | .obj o => parseErrorObj o
  | .txt s =>
    if s = "" then defaultClassifiedError
    else
      let normalized := jsTrim s
      if normalized = "" then defaultClassifiedError
      else
        match colonSplit normalized.data with
        | some (c, m) => ⟨jsTrim ⟨c⟩, jsTrim ⟨m⟩⟩
        | none =>
          match periodSplit normalized.data with
          | some (c, m) =>
            if m.length > 10 then ⟨jsTrim ⟨c⟩, jsTrim ⟨m⟩⟩
            else ⟨inferCause normalized, normalized⟩
          | none => ⟨inferCause normalized, normalized⟩

/-- Amended reading of claim C6: every selected field value is trimmed, and
a value that trims to empty falls through to the terminal default without
consulting the remaining fields. -/
def parseErrorObjAmended (o : ErrObj) : ClassifiedError :=
  let cause :=
    match o.cause with
    | some c => if jsTrim c ≠ "" then jsTrim c else "Error"
    | none =>
      match o.code with
      | some c => if jsTrim c ≠ "" then jsTrim c else "Error"
      | none => "Error"
  let message :=
    match o.message with
    | some m => if jsTrim m ≠ "" then jsTrim m else defaultClassifiedError.message
    | none =>
      match o.error with
      | some e => if jsTrim e ≠ "" then jsTrim e else defaultClassifiedError.message
      | none =>
        if jsonStringify o ≠ "" then jsonStringify o else defaultClassifiedError.message
  ⟨cause, message⟩

/-! ## Theorems: claims C3, C4, C5, C6 -/

theorem countDirWords_eq (ws : List (List Char)) :
    countDirWords ws =
      (ws.countP isRTLWord, ws.countP (fun w => !isRTLWord w && hasLatinLetter w)) := by
  induction ws with
  | nil => rfl
  | cons w ws ih =>
    by_cases h1 : isRTLWord w <;> by_cases h2 : hasLatinLetter w <;>
      simp [countDirWords, ih, List.countP_cons, h1, h2]

theorem countP_rtl_add_latin (ws : List (List Char)) :
    ws.countP isRTLWord + ws.countP (fun w => !isRTLWord w && hasLatinLetter w) =
      ws.countP (fun w => isRTLWord w || hasLatinLetter w) := by
  induction ws with
  | nil => rfl
  | cons w ws ih =>
    by_cases h1 : isRTLWord w <;> by_cases h2 : hasLatinLetter w <;>
      simp [List.countP_cons, h1, h2] <;> omega

/-- C3: detectTextDirection splits the input into separator-delimited words,
counts a word as RTL when it contains an RTL-script character and otherwise
as LTR only when it contains a Latin letter, and returns rtl exactly when
the RTL words form a strict majority of the counted words; ties, empty
input and inputs without counted words give ltr. -/
theorem c3_direction_strict_majority (s : String) :
    detectTextDirection s = .rtl ↔
      2 * (rtlWordsOf s).length > (directionalWordsOf s).length := by
  unfold detectTextDirection rtlWordsOf directionalWordsOf
  by_cases hs : s = ""
  · subst hs
    simp [splitWords, splitWordsF]
  · simp only [hs, if_false]
    by_cases hw : splitWords s.data = []
    · simp [hw]
    · simp only [hw, if_false, countDirWords_eq]
      rw [← List.countP_eq_length_filter, ← List.countP_eq_length_filter,
        ← countP_rtl_add_latin]
      set r := (splitWords s.data).countP isRTLWord with hr
      set t := (splitWords s.data).countP (fun w => !isRTLWord w && hasLatinLetter w) with ht
      by_cases h0 : r + t = 0
      · simp [h0]
        omega
      · simp only [h0, if_false]
        by_cases hmaj : 2 * r > r + t
        · simp [hmaj]
        · simp [hmaj]

/-- C4: the concrete direction test vectors from the spec: a text with the
words hello, שלום, שלום classifies as rtl, and "hello world" as ltr. -/
theorem c4_direction_test_vectors :
    detectTextDirection "hello שלום שלום" = .rtl ∧
      detectTextDirection "hello world" = .ltr := by
  constructor <;> rfl

/-- C5: on the free-text input "Rate limit exceeded. Try later." the colon
rule does not apply (no colon), the sentence rule matches but its remainder
"Try later." has exactly 10 characters, not more than 10, so it does not
fire, and the keyword table yields cause "Rate Limit" with the full text
kept as the message. -/
theorem c5_rate_limit_keyword_fallback :
    colonSplit ("Rate limit exceeded. Try later.").data = none ∧
      periodSplit ("Rate limit exceeded. Try later.").data =
        some (("Rate limit exceeded.").data, ("Try later.").data) ∧
      ("Try later.").data.length = 10 ∧
      parseError (.txt "Rate limit exceeded. Try later.") =
        ⟨"Rate Limit", "Rate limit exceeded. Try later."⟩ := by
  refine ⟨by rfl, by rfl, by rfl, by rfl⟩

/-- C6 counterexample: the classifier trims structured field values and
treats a value that trims to empty as missing-with-default, so the returned
cause is not always equal to the cause field (nor to the code field when the
cause field is an empty string). -/
theorem c6_structured_error_counterexample :
    parseError (.obj ⟨some "x ", none, some "ok", none⟩) = ⟨"x", "ok"⟩ ∧
      ("x" : String) ≠ "x " ∧
      parseError (.obj ⟨some "", some "Network", some "ok", none⟩) =
        ⟨"Error", "ok"⟩ ∧
      ("Error" : String) ≠ "" ∧ ("Error" : String) ≠ "Network" := by
  refine ⟨by rfl, by decide, by rfl, by decide, by decide⟩

/-- C6 (amended): for structured input the cause is the trimmed cause field
if it is a string (falling back to "Error" when it trims to empty, without
consulting code), else the trimmed code field (same empty fallback), else
"Error"; the message is the trimmed message field (falling back to the
fixed default when it trims to empty, without consulting error), else the
trimmed error field, else the serialization of the object, else the fixed
default; absent or empty input gives exactly the fixed default pair. -/
theorem c6_structured_error_amended (o : ErrObj) :
    parseError (.obj o) = parseErrorObjAmended o ∧
      parseError .absent = defaultClassifiedError ∧
      parseError (.txt "") = defaultClassifiedError := by
  refine ⟨?_, rfl, rfl⟩
  obtain ⟨c, k, m, e⟩ := o
  cases c <;> cases k <;> cases m <;> cases e <;>
    simp only [parseError, parseErrorObj, parseErrorObjAmended] <;>
    split_ifs <;> simp_all

/-! ## Provider adapters: streaming send (openrouter.js sendOpenRouterRequest,
gemini provider sendGeminiRequest)

The network and JSON layers are external; a server-sent-events line is
embedded by what the parsing in the source extracts from it. -/

/-- one parsed "data: ..." JSON payload of the OpenRouter stream. -/
structure ORData where
  /-- some msg when the payload has an error field (msg is the message the
  source derives from it); the loop returns this error. -/
  error : Option String
  /-- payload has a usage field and no choices: skipped. -/
  usageOnly : Bool
  /-- choices[0].delta.content, when present as a string. -/
  delta : Option String

/-- one line of the OpenRouter SSE stream, as classified by the loop. -/
inductive ORLine
  | emptyLine
  | comment
  | doneMark
  | notData
  | dataLine (d : Option ORData)

inductive SendResult
  | content (s : String)
  | failure (e : String)
deriving DecidableEq

/-- the per-line streaming loop of sendOpenRouterRequest: accumulates
fullContent and the fragments passed to onChunk; a payload error aborts
with a failure result. -/
def orProcessLines : List ORLine → String → List String → SendResult × List String
  | [], acc, chunks => (.content acc, chunks)
  | line :: rest, acc, chunks =>
    match line with
    | .dataLine (some d) =>
      match d.error with
      | some e => (.failure e, chunks)
      | none =>
        if d.usageOnly then orProcessLines rest acc chunks
        else
          match d.delta with
          | some c =>
            if c = "" then orProcessLines rest acc chunks
            else orProcessLines rest (acc ++ c) (chunks ++ [c])
          | none => orProcessLines rest acc chunks
    | _ => orProcessLines rest acc chunks

/-- openrouter.js sendOpenRouterRequest, streaming branch: the line loop
followed by the final-buffer flush (which emits one more fragment when the
remaining partial line parses to a nonempty delta).  Returns the send
result and the list of fragments passed to onChunk, in emission order. -/
def sendOpenRouterRequest (lines : List ORLine) (finalDelta : Option String) :
    SendResult × List String :=
  match orProcessLines lines "" [] with
  | (.content acc, chunks) =>
    match finalDelta with
    | some c => if c = "" then (.content acc, chunks) else (.content (acc ++ c), chunks ++ [c])
    | none => (.content acc, chunks)
  | r => r

/-- the per-object streaming loop of sendGeminiRequest: each brace-balanced
JSON object extracted from the growing array yields
candidates[0].content.parts[0].text (none when absent or unparsable);
nonempty texts are accumulated and passed to onChunk. -/
def geminiProcessObjs : List (Option String) → String → List String → String × List String
  | [], acc, chunks => (acc, chunks)
  | o :: rest, acc, chunks =>
    match o with
    | some c =>
      if c = "" then geminiProcessObjs rest acc chunks
      else geminiProcessObjs rest (acc ++ c) (chunks ++ [c])
    | none => geminiProcessObjs rest acc chunks

/-- gemini provider sendGeminiRequest, streaming branch: always succeeds
with the accumulated content (parse errors are logged and skipped). -/
def sendGeminiRequest (objs : List (Option String)) : String × List String :=
  geminiProcessObjs objs "" []

/-! ## Request orchestrator (service-worker.js) -/

structure Settings where
  provider : String
  model : String
  language : String
  systemPrompt : String
  openrouterApiKey : String
  geminiApiKey : String

structure RequestPayload where
  text : String
  contextBefore : String
  pageTitle : String
  pageUrl : String
  /-- present only for translate requests; absent means translation mode. -/
  mode : Option String

inductive ProviderId
  | openrouter
  | gemini
deriving DecidableEq

/-- the PROVIDERS lookup table of service-worker.js. -/
def PROVIDERS (id : String) : Option ProviderId :=
  if id = "openrouter" then some .openrouter
  else if id = "gemini" then some .gemini
  else none

def TRANSLATOR_SYSTEM_PROMPT : String :=
  "You are a friendly translator and language coach. Keep responses concise, accurate, and follow the requested format exactly."

/-- service-worker.js buildUserMessage. -/
def buildUserMessage (payload : RequestPayload) (language : String) : String :=
  (if payload.pageTitle ≠ "" then "Page: \"" ++ payload.pageTitle ++ "\"\n" else "") ++
  (if payload.contextBefore ≠ "" then
    "\nPreceding text: \"..." ++ payload.contextBefore ++ "\"\n" else "") ++
  "\n**Selected text to explain:**\n\"" ++ payload.text ++ "\"" ++
  "\n\nRespond ONLY in " ++ language ++ ". Do not switch languages."

/-- service-worker.js buildTranslateUserMessage. -/
def buildTranslateUserMessage (payload : RequestPayload) (language : String) : String :=
  let contextLines :=
    (if payload.pageTitle ≠ "" then ["Page: \"" ++ payload.pageTitle ++ "\""] else []) ++
    (if payload.pageUrl ≠ "" then ["URL: " ++ payload.pageUrl] else []) ++
    (if payload.contextBefore ≠ "" then
      ["Preceding text: \"..." ++ payload.contextBefore ++ "\""] else [])
  let contextBlock :=
    if contextLines ≠ [] then
      "\n\nContext to stay accurate:\n" ++ String.intercalate "\n" contextLines
    else ""
  let mode := payload.mode.getD "translation"
  if mode = "idioms" then
    "You are coaching a learner to sound natural in " ++ language ++ "." ++ contextBlock ++
    "\n\nSource text:\n\"" ++ payload.text ++ "\"" ++
    "\n\nShare 3-5 idiomatic or culturally natural ways to express this idea in " ++
    language ++
    ". For each, include a short tone tag (e.g., formal, casual, playful) and one brief example (max 12 words). Keep everything in " ++
    language ++ ", concise, and easy to study."
  else if mode = "similar" then
    "You are helping a learner find interchangeable phrases in " ++ language ++ "." ++
    contextBlock ++ "\n\nSource text:\n\"" ++ payload.text ++ "\"" ++
    "\n\nList 4-6 similar phrases or synonyms in " ++ language ++
    ". For each item, add a one-line note about nuance or when to use it, plus a tiny example sentence. Keep the focus on practical language learning and avoid English."
  else if mode = "learning" then
    "Give a quick mini-lesson in " ++ language ++ "." ++ contextBlock ++
    "\n\nSource text:\n\"" ++ payload.text ++ "\"" ++
    "\n\nProvide:\n- Key vocabulary with short meanings.\n- 1-2 grammar or structure cues.\n- One micro practice prompt the learner can answer." ++
    "\n\nBe concise, encouraging, and stay entirely in " ++ language ++ "."
  else
    "Translate the following text into " ++ language ++ "." ++ contextBlock ++
    "\n\nSource text:\n\"" ++ payload.text ++ "\"" ++
    "\n\nRespond with ONLY the translated text in " ++ language ++
    ". No labels, no quotes, no Markdown, no explanations, and no extra sentences."

/-- the provider-neutral request parameters built by the handlers. -/
structure ProviderRequest where
  model : String
  systemPrompt : String
  userMessage : String
  apiKey : String

/-- the per-provider API key assignment of the handlers. -/
def apiKeyFor (settings : Settings) : ProviderId → String
  | .openrouter => settings.openrouterApiKey
  | .gemini => settings.geminiApiKey

/-- what a handler does with one inbound request: either it answers with an
error without contacting any provider, or it calls the resolved provider
with the built request.  Network activity and prompt construction happen
only on the callProvider branch. -/
inductive OrchAction
  | respondError (msg : String)
  | callProvider (p : ProviderId) (req : ProviderRequest)

/-- service-worker.js handleExplainRequest up to the provider call. -/
def handleExplainRequest (settings : Settings) (payload : RequestPayload) : OrchAction :=
  match PROVIDERS settings.provider with
  | none => .respondError ("Unknown provider: " ++ settings.provider)
  | some p =>
    .callProvider p
      ⟨settings.model, settings.systemPrompt,
        buildUserMessage payload settings.language, apiKeyFor settings p⟩

/-- service-worker.js handleStreamRequest up to the provider call
(isTranslate discriminates the two accepted stream message types). -/
def handleStreamRequest (settings : Settings) (isTranslate : Bool)
    (payload : RequestPayload) : OrchAction :=
  match PROVIDERS settings.provider with
  | none => .respondError ("Unknown provider: " ++ settings.provider)
  | some p =>
    .callProvider p
      ⟨settings.model,
        (if isTranslate then TRANSLATOR_SYSTEM_PROMPT else settings.systemPrompt),
        (if isTranslate then buildTranslateUserMessage payload settings.language
          else buildUserMessage payload settings.language),
        apiKeyFor settings p⟩

/-! ## Streaming channel events (service-worker.js handleStreamRequest) -/

inductive StreamEvent
  | chunk (content : String)
  | done
  | error (detail : String)
deriving DecidableEq

/-- the observable behaviour of one provider send call on a stream request:
the fragments delivered through onChunk, and how the call ended. -/
inductive SendOutcome
  | success (chunks : List String) (content : String)
  | failure (chunks : List String) (errMsg : String)
  | thrown (chunks : List String) (errMsg : String)

/-- the events handleStreamRequest posts to the port for one provider send:
a CHUNK per onChunk fragment; on a (truthy) error result an error event; on
success a compensating CHUNK when nothing was streamed but content is
nonempty, then DONE; on a thrown exception an error event from the catch. -/
def streamEventsOf : SendOutcome → List StreamEvent
  | .success chunks content =>
    chunks.map .chunk ++
      (if chunks.isEmpty && !(content == "") then [.chunk content] else []) ++ [.done]
  | .failure chunks errMsg =>
    chunks.map .chunk ++ (if errMsg = "" then [.done] else [.error errMsg])
  | .thrown chunks errMsg => chunks.map .chunk ++ [.error errMsg]

/-- the full event sequence posted for one stream request: an unknown
provider answers with a single error event and never reaches the provider;
otherwise the events of the provider send. -/
def streamEventsFor : OrchAction → SendOutcome → List StreamEvent
  | .respondError msg, _ => [.error msg]
  | .callProvider _ _, outcome => streamEventsOf outcome

def isChunkEv : StreamEvent → Bool
  | .chunk _ => true
  | _ => false

def isDoneEv : StreamEvent → Bool
  | .done => true
  | _ => false

def isErrorEv : StreamEvent → Bool
  | .error _ => true
  | _ => false

def isTerminalEv (e : StreamEvent) : Bool := isDoneEv e || isErrorEv e

/-- the event protocol of the spec: zero or more chunks followed by exactly
one terminal event, nothing after it. -/
def WellFormedStream (evs : List StreamEvent) : Prop :=
  ∃ cs t, (∀ e ∈ cs, isChunkEv e = true) ∧ isTerminalEv t = true ∧ evs = cs ++ [t]

/-! ## Theorems: claims C1, C2, C7 -/

theorem stringJoin_append_singleton (l : List String) (c : String) :
    String.join (l ++ [c]) = String.join l ++ c := by
  simp [String.join, List.foldl_append]

theorem orProcessLines_inv (lines : List ORLine) :
    ∀ acc chunks s out,
      acc = String.join chunks → (∀ c ∈ chunks, c ≠ "") →
      orProcessLines lines acc chunks = (.content s, out) →
      s = String.join out ∧ ∀ c ∈ out, c ≠ "" := by
  induction lines with
  | nil =>
    intro acc chunks s out h1 h2 h3
    simp only [orProcessLines, Prod.mk.injEq, SendResult.content.injEq] at h3
    exact ⟨h3.2 ▸ h3.1 ▸ h1, h3.2 ▸ h2⟩
  | cons line rest ih =>
    intro acc chunks s out h1 h2 h3
    cases line with
    | emptyLine => exact ih acc chunks s out h1 h2 h3
    | comment => exact ih acc chunks s out h1 h2 h3
    | doneMark => exact ih acc chunks s out h1 h2 h3
    | notData => exact ih acc chunks s out h1 h2 h3
    | dataLine d =>
      cases d with
      | none => exact ih acc chunks s out h1 h2 h3
      | some dd =>
        simp only [orProcessLines] at h3
        cases hde : dd.error with
        | some e => rw [hde] at h3; simp at h3
        | none =>
          rw [hde] at h3
          by_cases hu : dd.usageOnly
          · simp only [hu, if_true] at h3
            exact ih acc chunks s out h1 h2 h3
          · simp only [hu, if_false] at h3
            cases hdl : dd.delta with
            | none => rw [hdl] at h3; exact ih acc chunks s out h1 h2 h3
            | some c =>
              rw [hdl] at h3
              by_cases hc : c = ""
              · simp only [hc, if_true] at h3
                exact ih acc chunks s out h1 h2 h3
              · simp only [hc, if_false] at h3
                refine ih (acc ++ c) (chunks ++ [c]) s out ?_ ?_ h3
                · rw [h1, stringJoin_append_singleton]
                · intro x hx
                  rcases List.mem_append.mp hx with h | h
                  · exact h2 x h
                  · simp only [List.mem_singleton] at h
                    exact h ▸ hc

theorem geminiProcessObjs_inv (objs : List (Option String)) :
    ∀ acc chunks s out,
      acc = String.join chunks → (∀ c ∈ chunks, c ≠ "") →
      geminiProcessObjs objs acc chunks = (s, out) →
      s = String.join out ∧ ∀ c ∈ out, c ≠ "" := by
  induction objs with
  | nil =>
    intro acc chunks s out h1 h2 h3
    simp only [geminiProcessObjs, Prod.mk.injEq] at h3
    exact ⟨h3.2 ▸ h3.1 ▸ h1, h3.2 ▸ h2⟩
  | cons o rest ih =>
    intro acc chunks s out h1 h2 h3
    cases o with
    | none => exact ih acc chunks s out h1 h2 h3
    | some c =>
      simp only [geminiProcessObjs] at h3
      by_cases hc : c = ""
      · simp only [hc, if_true] at h3
        exact ih acc chunks s out h1 h2 h3
      · simp only [hc, if_false] at h3
        refine ih (acc ++ c) (chunks ++ [c]) s out ?_ ?_ h3
        · rw [h1, stringJoin_append_singleton]
        · intro x hx
          rcases List.mem_append.mp hx with h | h
          · exact h2 x h
          · simp only [List.mem_singleton] at h
            exact h ▸ hc

/-- C1: for both provider adapters, a successful streaming send returns
content equal to the concatenation, in emission order, of the fragments
passed to onChunk, and every such fragment is nonempty. -/
theorem c1_send_content_eq_concat_chunks :
    (∀ (lines : List ORLine) (finalDelta : Option String) (s : String) (out : List String),
      sendOpenRouterRequest lines finalDelta = (.content s, out) →
      s = String.join out ∧ ∀ c ∈ out, c ≠ "") ∧
    (∀ (objs : List (Option String)) (s : String) (out : List String),
      sendGeminiRequest objs = (s, out) →
      s = String.join out ∧ ∀ c ∈ out, c ≠ "") := by
  constructor
  · intro lines finalDelta s out h
    unfold sendOpenRouterRequest at h
    cases hloop : orProcessLines lines "" [] with
    | mk r chunks =>
      rw [hloop] at h
      cases r with
      | failure e => simp at h
      | content acc =>
        have hbase := orProcessLines_inv lines "" [] acc chunks (by rfl) (by simp) hloop
        cases finalDelta with
        | none =>
          simp only [Prod.mk.injEq, SendResult.content.injEq] at h
          exact ⟨h.2 ▸ h.1 ▸ hbase.1, h.2 ▸ hbase.2⟩
        | some c =>
          by_cases hc : c = ""
          · simp only [hc, if_true, Prod.mk.injEq, SendResult.content.injEq] at h
            exact ⟨h.2 ▸ h.1 ▸ hbase.1, h.2 ▸ hbase.2⟩
          · simp only [hc, if_false, Prod.mk.injEq, SendResult.content.injEq] at h
            refine ⟨?_, ?_⟩
            · rw [← h.1, ← h.2, stringJoin_append_singleton, hbase.1]
            · rw [← h.2]
              intro x hx
              rcases List.mem_append.mp hx with hm | hm
              · exact hbase.2 x hm
              · simp only [List.mem_singleton] at hm
                exact hm ▸ hc
  · intro objs s out h
    exact geminiProcessObjs_inv objs "" [] s out (by rfl) (by simp) h

theorem c1_send_content_eq_concat_chunks_witness :
    (("ab" : String) = String.join ["a", "b"] ∧ ∀ c ∈ ["a", "b"], c ≠ "") ∧
    (("xy" : String) = String.join ["x", "y"] ∧ ∀ c ∈ ["x", "y"], c ≠ "") :=
  ⟨c1_send_content_eq_concat_chunks.1
      [.dataLine (some ⟨none, false, some "a"⟩), .comment,
        .dataLine (some ⟨none, true, some "zzz"⟩), .dataLine (some ⟨none, false, some ""⟩)]
      (some "b") "ab" ["a", "b"] (by rfl),
    c1_send_content_eq_concat_chunks.2 [some "x", none, some "", some "y"]
      "xy" ["x", "y"] (by rfl)⟩

theorem countP_error_map_chunk (chunks : List String) :
    (chunks.map StreamEvent.chunk).countP isErrorEv = 0 := by
  induction chunks with
  | nil => rfl
  | cons c rest ih => simp [List.countP_cons, isErrorEv, ih]

theorem countP_done_map_chunk (chunks : List String) :
    (chunks.map StreamEvent.chunk).countP isDoneEv = 0 := by
  induction chunks with
  | nil => rfl
  | cons c rest ih => simp [List.countP_cons, isDoneEv, ih]

theorem streamEventsFor_wf (a : OrchAction) (o : SendOutcome) :
    WellFormedStream (streamEventsFor a o) := by
  have chunk_mem : ∀ (chunks : List String) (e : StreamEvent),
      e ∈ chunks.map StreamEvent.chunk → isChunkEv e = true := by
    intro chunks e he
    obtain ⟨c, _, rfl⟩ := List.mem_map.mp he
    rfl
  cases a with
  | respondError msg => exact ⟨[], .error msg, by simp, rfl, rfl⟩
  | callProvider p req =>
    cases o with
    | success chunks content =>
      by_cases hc : chunks.isEmpty && !(content == "")
      · refine ⟨chunks.map .chunk ++ [.chunk content], .done, ?_, rfl, ?_⟩
        · intro e he
          rcases List.mem_append.mp he with h | h
          · exact chunk_mem chunks e h
          · simp only [List.mem_singleton] at h
            subst h; rfl
        · simp [streamEventsFor, streamEventsOf, hc]
      · refine ⟨chunks.map .chunk, .done, chunk_mem chunks, rfl, ?_⟩
        simp [streamEventsFor, streamEventsOf, hc]
    | failure chunks errMsg =>
      by_cases he : errMsg = ""
      · exact ⟨chunks.map .chunk, .done, chunk_mem chunks, rfl,
          by simp [streamEventsFor, streamEventsOf, he]⟩
      · exact ⟨chunks.map .chunk, .error errMsg, chunk_mem chunks, rfl,
          by simp [streamEventsFor, streamEventsOf, he]⟩
    | thrown chunks errMsg =>
      exact ⟨chunks.map .chunk, .error errMsg, chunk_mem chunks, rfl, rfl⟩

/-- C2: the events posted for one stream request are zero or more chunk
events followed by exactly one terminal event (done or error) with nothing
after it; and when the provider send ends in a (nonempty) error after
delivering fragments, the posted events contain exactly one error event and
no done event. -/
theorem c2_stream_events_well_formed (settings : Settings) (tr : Bool)
    (payload : RequestPayload) (o : SendOutcome) :
    WellFormedStream (streamEventsFor (handleStreamRequest settings tr payload) o) ∧
    (∀ chunks err, o = .failure chunks err → err ≠ "" →
      (streamEventsFor (handleStreamRequest settings tr payload) o).countP isErrorEv = 1 ∧
      (streamEventsFor (handleStreamRequest settings tr payload) o).countP isDoneEv = 0) := by
  refine ⟨streamEventsFor_wf _ o, ?_⟩
  intro chunks err ho he
  subst ho
  cases ha : handleStreamRequest settings tr payload with
  | respondError msg => simp [streamEventsFor, isErrorEv, isDoneEv]
  | callProvider p req =>
    simp [streamEventsFor, streamEventsOf, he, List.countP_append,
      countP_error_map_chunk, countP_done_map_chunk, isErrorEv, isDoneEv]

theorem c2_stream_events_well_formed_witness :
    (WellFormedStream (streamEventsFor
        (handleStreamRequest ⟨"openrouter", "m", "English", "sp", "k", ""⟩ false
          ⟨"text", "", "", "", none⟩) (.failure ["a"] "boom")) ∧
      True) ∧
    (streamEventsFor
        (handleStreamRequest ⟨"openrouter", "m", "English", "sp", "k", ""⟩ false
          ⟨"text", "", "", "", none⟩) (.failure ["a"] "boom")).countP isErrorEv = 1 ∧
    (streamEventsFor
        (handleStreamRequest ⟨"openrouter", "m", "English", "sp", "k", ""⟩ false
          ⟨"text", "", "", "", none⟩) (.failure ["a"] "boom")).countP isDoneEv = 0 := by
  have h := c2_stream_events_well_formed ⟨"openrouter", "m", "English", "sp", "k", ""⟩ false
    ⟨"text", "", "", "", none⟩ (.failure ["a"] "boom")
  exact ⟨⟨h.1, trivial⟩, h.2 ["a"] "boom" rfl (by decide)⟩

/-- C7: when the configured provider id matches no adapter, both the
one-shot explain handler and the stream handler answer with the unknown
provider error as their only action: no provider request is built and the
posted events do not depend on any provider outcome (no network activity). -/
theorem c7_unknown_provider_fail_fast (settings : Settings) (payload : RequestPayload)
    (tr : Bool) (h : PROVIDERS settings.provider = none) :
    handleExplainRequest settings payload =
      .respondError ("Unknown provider: " ++ settings.provider) ∧
    handleStreamRequest settings tr payload =
      .respondError ("Unknown provider: " ++ settings.provider) ∧
    (∀ o : SendOutcome,
      streamEventsFor (handleStreamRequest settings tr payload) o =
        [.error ("Unknown provider: " ++ settings.provider)]) := by
  refine ⟨?_, ?_, ?_⟩ <;>
    simp [handleExplainRequest, handleStreamRequest, h, streamEventsFor]

theorem c7_unknown_provider_fail_fast_witness :
    handleExplainRequest ⟨"claude", "m", "English", "sp", "", ""⟩
        ⟨"text", "", "", "", none⟩ =
      .respondError "Unknown provider: claude" ∧
    handleStreamRequest ⟨"claude", "m", "English", "sp", "", ""⟩ true
        ⟨"text", "", "", "", none⟩ =
      .respondError "Unknown provider: claude" ∧
    streamEventsFor
        (handleStreamRequest ⟨"claude", "m", "English", "sp", "", ""⟩ true
          ⟨"text", "", "", "", none⟩) (.success ["a"] "a") =
      [.error "Unknown provider: claude"] := by
  have h := c7_unknown_provider_fail_fast ⟨"claude", "m", "English", "sp", "", ""⟩
    ⟨"text", "", "", "", none⟩ true (by rfl)
  exact ⟨h.1, h.2.1, h.2.2 (.success ["a"] "a")⟩

/-! ## Model listing (openrouter.js fetchOpenRouterModels, gemini provider
fetchGeminiModels)

The module-level cachedModels variable is passed in and returned
explicitly; the vendor HTTP exchange is external and embedded by its
outcome.  Fallback entries omit some descriptor fields in the source;
absent strings are embedded as "" and absent numbers as 0. -/

structure ModelDescriptor where
  id : String
  name : String
  description : String
  contextLength : Nat
  pricingPrompt : Rat
  pricingCompletion : Rat
  isFree : Bool
  provider : String
deriving DecidableEq

/-- one entry of the OpenRouter models payload, with field values embedded
as the source reads them (name "" when absent, prices already parsed as the
exact rational value of parseFloat(pricing.prompt or 0)). -/
structure ORRawModel where
  id : String
  name : String
  description : String
  contextLength : Nat
  pricingPrompt : Rat
  pricingCompletion : Rat

/-- one entry of the Gemini models payload. -/
structure GeminiRawModel where
  name : String
  displayName : String
  description : String
  inputTokenLimit : Nat
  supportedGenerationMethods : List String

inductive ORFetchOutcome
  | ok (data : List ORRawModel)
  | httpFail
  | badPayload
  | thrown

inductive GeminiFetchOutcome
  | ok (data : List GeminiRawModel)
  | httpFail
  | badPayload
  | thrown

def ORFetchOutcome.isFailure : ORFetchOutcome → Bool
  | .ok _ => false
  | _ => true

def GeminiFetchOutcome.isFailure : GeminiFetchOutcome → Bool
  | .ok _ => false
  | _ => true

def OPENROUTER_FALLBACK_MODELS : List ModelDescriptor :=
  [⟨"anthropic/claude-sonnet-4", "Claude Sonnet 4", "", 0, 3, 15, false, ""⟩,
   ⟨"openai/gpt-4o-mini", "GPT-4o Mini", "", 0, (15 : Rat) / 100, (6 : Rat) / 10, false, ""⟩,
   ⟨"google/gemini-2.0-flash-exp:free", "Gemini 2.0 Flash (Free)", "", 0, 0, 0, true, ""⟩]

def GEMINI_FALLBACK_MODELS : List ModelDescriptor :=
  [⟨"gemini-2.0-flash", "Gemini 2.0 Flash", "", 0, 0, 0, true, ""⟩,
   ⟨"gemini-1.5-flash", "Gemini 1.5 Flash", "", 0, 0, 0, true, ""⟩,
   ⟨"gemini-1.5-pro", "Gemini 1.5 Pro", "", 0, 0, 0, true, ""⟩]

/-- stable insertion sort modelling Array.prototype.sort with a total
preorder comparator (le a b means the comparator is not positive on a, b,
so a stays before b). -/
def orderedInsert (le : ModelDescriptor → ModelDescriptor → Bool) (m : ModelDescriptor) :
    List ModelDescriptor → List ModelDescriptor
  | [] => [m]
  | x :: xs => if le x m then x :: orderedInsert le m xs else m :: x :: xs

def sortModels (le : ModelDescriptor → ModelDescriptor → Bool) :
    List ModelDescriptor → List ModelDescriptor
  | [] => []
  | x :: xs => orderedInsert le x (sortModels le xs)

/-- the OpenRouter comparator: free models first, then ascending prompt
price. -/
def orModelLe (a b : ModelDescriptor) : Bool :=
  if a.isFree && !b.isFree then true
  else if !a.isFree && b.isFree then false
  else a.pricingPrompt ≤ b.pricingPrompt

/-- model.id.split("/")[0] with "unknown" for an empty first segment. -/
def providerOfId (id : String) : String :=
  let seg := id.data.takeWhile (fun c => c ≠ '/')
  if seg = [] then "unknown" else ⟨seg⟩

/-- the filter-map-sort of a successful OpenRouter models fetch
(prices converted to per-million-token rates, free = both prices zero). -/
def transformOpenRouterModels (raw : List ORRawModel) : List ModelDescriptor :=
  sortModels orModelLe
    ((raw.filter (fun m => m.id ≠ "")).map (fun m =>
      let promptPrice := m.pricingPrompt * 1000000
      let completionPrice := m.pricingCompletion * 1000000
      ⟨m.id, (if m.name = "" then m.id else m.name), m.description, m.contextLength,
        promptPrice, completionPrice,
        decide (promptPrice = 0 ∧ completionPrice = 0), providerOfId m.id⟩))

/-- name.replace("models/", ""): remove the first occurrence of the
pattern.  Structural recursion with the match at each position. -/
def replaceFirst (pat : List Char) : List Char → List Char
  | [] => []
  | c :: rest =>
    if startsWithL pat (c :: rest) then (c :: rest).drop pat.length
    else c :: replaceFirst pat rest

/-- the Gemini comparator models localeCompare on names by code point
order (the exact collation is locale dependent; the claims do not depend
on the order). -/
def geminiModelLe (a b : ModelDescriptor) : Bool := decide (a.name ≤ b.name)

/-- the filter-map-sort of a successful Gemini models fetch. -/
def transformGeminiModels (raw : List GeminiRawModel) : List ModelDescriptor :=
  sortModels geminiModelLe
    ((raw.filter (fun m => m.supportedGenerationMethods.contains "generateContent")).map
      (fun m =>
        let id : String := ⟨replaceFirst ("models/").data m.name.data⟩
        ⟨id, (if m.displayName = "" then id else m.displayName), m.description,
          m.inputTokenLimit, 0, 0, true, "google"⟩))

/-- the value of one listModels call together with the cache it leaves
behind and whether a network fetch was issued. -/
structure ListModelsCall where
  result : List ModelDescriptor
  newCache : Option (List ModelDescriptor)
  fetched : Bool
deriving DecidableEq

/-- openrouter.js fetchOpenRouterModels: cached list unless forceRefresh;
a successful fetch replaces the cache; any failure (non-OK status, bad
payload shape, thrown transport error) returns the fallback set and leaves
the cache unchanged. -/
def fetchOpenRouterModels (cache : Option (List ModelDescriptor)) (forceRefresh : Bool)
    (outcome : ORFetchOutcome) : ListModelsCall :=
  match cache, forceRefresh with
  | some ms, false => ⟨ms, some ms, false⟩
  | _, _ =>
    match outcome with
    | .ok raw =>
      let t := transformOpenRouterModels raw
      ⟨t, some t, true⟩
    | _ => ⟨OPENROUTER_FALLBACK_MODELS, cache, true⟩

/-- gemini provider fetchGeminiModels: cached list unless forceRefresh;
with no API key it returns the fallback set without fetching; otherwise as
for OpenRouter. -/
def fetchGeminiModels (cache : Option (List ModelDescriptor)) (apiKey : String)
    (forceRefresh : Bool) (outcome : GeminiFetchOutcome) : ListModelsCall :=
  match cache, forceRefresh with
  | some ms, false => ⟨ms, some ms, false⟩
  | _, _ =>
    if apiKey = "" then ⟨GEMINI_FALLBACK_MODELS, cache, false⟩
    else
      match outcome with
      | .ok raw =>
        let t := transformGeminiModels raw
        ⟨t, some t, true⟩
      | _ => ⟨GEMINI_FALLBACK_MODELS, cache, true⟩

/-! ## Theorems: claim C8 -/

/-- C8 counterexample: two of the claims fail on the code.  First,
forceRefresh = true does not always fetch: the Gemini adapter with an empty
API key returns the fallback set without any network call even when forced.
Second, two consecutive non-forced calls are not limited to one network
call: a failed first fetch leaves the cache empty, so the second call
fetches again. -/
theorem c8_models_cache_counterexample :
    (fetchGeminiModels none "" true (.ok [])).fetched = false ∧
    (fetchOpenRouterModels none false .httpFail).fetched = true ∧
    (fetchOpenRouterModels
      (fetchOpenRouterModels none false .httpFail).newCache false .httpFail).fetched
      = true := by
  refine ⟨by rfl, by rfl, by rfl⟩

/-- C8 (amended): a non-forced call with a populated cache returns the
cached list without fetching, so two consecutive non-forced calls issue at
most one network call provided the first call did not end in a failed
fetch; forceRefresh = true always fetches for OpenRouter, and for Gemini
whenever an API key is present (with no key Gemini returns the fallback
without fetching); and every failed fetch returns the fixed fallback set
instead of failing. -/
theorem c8_models_cache_amended (ms : List ModelDescriptor)
    (cache : Option (List ModelDescriptor)) (apiKey : String) (force : Bool)
    (oro oro2 : ORFetchOutcome) (go go2 : GeminiFetchOutcome)
    (raw : List ORRawModel) (graw : List GeminiRawModel) :
    fetchOpenRouterModels (some ms) false oro = ⟨ms, some ms, false⟩ ∧
    fetchGeminiModels (some ms) apiKey false go = ⟨ms, some ms, false⟩ ∧
    (fetchOpenRouterModels cache true oro).fetched = true ∧
    (apiKey ≠ "" → (fetchGeminiModels cache apiKey true go).fetched = true) ∧
    ((cache = none ∨ force = true) → oro.isFailure = true →
      (fetchOpenRouterModels cache force oro).result = OPENROUTER_FALLBACK_MODELS) ∧
    ((cache = none ∨ force = true) → go.isFailure = true →
      (fetchGeminiModels cache apiKey force go).result = GEMINI_FALLBACK_MODELS) ∧
    (fetchOpenRouterModels
      (fetchOpenRouterModels cache false (.ok raw)).newCache false oro2).fetched = false ∧
    (fetchGeminiModels
      (fetchGeminiModels cache apiKey false (.ok graw)).newCache apiKey false go2).fetched
      = false := by
  refine ⟨rfl, rfl, ?_, ?_, ?_, ?_, ?_, ?_⟩
  · cases cache <;> cases oro <;> rfl
  · intro hk
    cases cache <;> cases go <;> simp [fetchGeminiModels, hk]
  · intro hc hf
    rcases hc with hc | hc
    · subst hc; cases oro <;> simp_all [fetchOpenRouterModels, ORFetchOutcome.isFailure]
    · subst hc; cases cache <;> cases oro <;>
        simp_all [fetchOpenRouterModels, ORFetchOutcome.isFailure]
  · intro hc hf
    by_cases hk : apiKey = ""
    · rcases hc with hc | hc
      · subst hc; cases go <;> simp_all [fetchGeminiModels, GeminiFetchOutcome.isFailure]
      · subst hc; cases cache <;> cases go <;>
          simp_all [fetchGeminiModels, GeminiFetchOutcome.isFailure]
    · rcases hc with hc | hc
      · subst hc; cases go <;> simp_all [fetchGeminiModels, GeminiFetchOutcome.isFailure]
      · subst hc; cases cache <;> cases go <;>
          simp_all [fetchGeminiModels, GeminiFetchOutcome.isFailure]
  · cases cache <;> rfl
  · by_cases hk : apiKey = ""
    · cases cache <;> simp [fetchGeminiModels, hk]
    · cases cache <;> simp [fetchGeminiModels, hk]

theorem c8_models_cache_amended_witness :
    (fetchOpenRouterModels (some OPENROUTER_FALLBACK_MODELS) false .httpFail =
      ⟨OPENROUTER_FALLBACK_MODELS, some OPENROUTER_FALLBACK_MODELS, false⟩) ∧
    (fetchOpenRouterModels none true .httpFail).fetched = true ∧
    (fetchGeminiModels none "key" true .httpFail).fetched = true ∧
    (fetchOpenRouterModels none false .httpFail).result = OPENROUTER_FALLBACK_MODELS ∧
    (fetchGeminiModels none "key" false .httpFail).result = GEMINI_FALLBACK_MODELS ∧
    (fetchOpenRouterModels
      (fetchOpenRouterModels none false (.ok [])).newCache false .httpFail).fetched
      = false := by
  have h := c8_models_cache_amended OPENROUTER_FALLBACK_MODELS none "key" false
    .httpFail .httpFail .httpFail .httpFail [] []
  exact ⟨h.1, h.2.2.1, h.2.2.2.1 (by decide), h.2.2.2.2.1 (Or.inl rfl) (by rfl),
    h.2.2.2.2.2.1 (Or.inl rfl) (by rfl), h.2.2.2.2.2.2.1⟩

/-! ## Markdown renderer (content.js parseMarkdown, escapeHtml)

The renderer is a chain of global regex replacements.  Each character of
the working string carries a provenance flag: true when it derives from the
input text (through escapeHtml), false when a replacement template emitted
it.  Replacements only copy characters (keeping their flag) or emit
template characters, exactly like String.replace. -/

/-- a working-string character with its provenance: true = derives from the
escaped input text, false = emitted by a renderer template. -/
abbrev PChar := Char × Bool

abbrev PStr := List PChar

/-- renderer template text. -/
def pstr (s : String) : PStr := s.data.map (fun c => (c, false))

/-- the escaped input text (provenance true). -/
def inputStr (s : String) : PStr := s.data.map (fun c => (c, true))

def chars (l : PStr) : List Char := l.map Prod.fst

def startsWithS (pat : String) (l : PStr) : Bool := startsWithL pat.data (chars l)

/-- content.js escapeHtml: the textContent/innerHTML round trip escapes
exactly the characters ampersand, less-than and greater-than. -/
def escapeHtmlP : List Char → PStr
  | [] => []
  | c :: rest =>
    (if c = '&' then inputStr "&amp;"
     else if c = '<' then inputStr "&lt;"
     else if c = '>' then inputStr "&gt;"
     else [(c, true)]) ++ escapeHtmlP rest

/-- generic left-to-right global replacement: at each position try the
matcher; on a match of n consumed characters emit the replacement and
continue after it, otherwise keep the character.  Fuel-based structural
recursion (fuel = length always suffices since every step consumes at
least one character). -/
def scanReplaceF (f : PStr → Option (Nat × PStr)) : Nat → PStr → PStr
  | 0, l => l
  | _ + 1, [] => []
  | fuel + 1, c :: rest =>
    match f (c :: rest) with
    | some (n, r) => r ++ scanReplaceF f fuel (List.drop (n - 1) rest)
    | none => c :: scanReplaceF f fuel rest

def scanReplace (f : PStr → Option (Nat × PStr)) (l : PStr) : PStr :=
  scanReplaceF f l.length l

/-- apply a line transformation to every line, where lines are delimited by
the ECMAScript line terminators (the boundaries of the multiline anchors). -/
def mapLinesF (g : PStr → PStr) : Nat → PStr → PStr
  | 0, l => l
  | fuel + 1, l =>
    let line := l.takeWhile (fun pc => !isLineTermChar pc.1)
    match l.drop line.length with
    | [] => g line
    | t :: rest => g line ++ [t] ++ mapLinesF g fuel rest

def mapLines (g : PStr → PStr) (l : PStr) : PStr := mapLinesF g (l.length + 1) l

/-- JavaScript trim on a provenance string. -/
def trimP (l : PStr) : PStr :=
  ((l.dropWhile (fun pc => isJsSpace pc.1)).reverse.dropWhile
    (fun pc => isJsSpace pc.1)).reverse

/-- JavaScript regex \w. -/
def isWordChar (c : Char) : Bool :=
  between 65 90 c.toNat || between 97 122 c.toNat || between 48 57 c.toNat || c = '_'

/-- index of the earliest occurrence of three backticks. -/
def findTripleTick : PStr → Option Nat
  | [] => none
  | pc :: rest =>
    if startsWithS "```" (pc :: rest) then some 0
    else
      match findTripleTick rest with
      | some k => some (k + 1)
      | none => none

/-- the fenced code block rule (three backticks, optional word language tag,
newline, lazy body, three backticks). -/
def matchCodeBlock (l : PStr) : Option (Nat × PStr) :=
  if startsWithS "```" l then
    let rest := l.drop 3
    let lang := rest.takeWhile (fun pc => isWordChar pc.1)
    match rest.drop lang.length with
    | (c, _) :: body0 =>
      if c = '\n' then
        match findTripleTick body0 with
        | some k =>
          some (3 + lang.length + 1 + k + 3,
            pstr "<pre><code class=\"language-" ++
              (if lang = [] then pstr "plaintext" else lang) ++ pstr "\">" ++
              trimP (body0.take k) ++ pstr "</code></pre>")
        | none => none
      else none
    | [] => none
  else none

/-- the inline code rule: backtick, one or more non-backticks, backtick. -/
def matchInlineCode (l : PStr) : Option (Nat × PStr) :=
  match l with
  | (c, _) :: rest =>
    if c = '`' then
      let body := rest.takeWhile (fun pc => pc.1 ≠ '`')
      if body = [] then none
      else
        match rest.drop body.length with
        | _ :: _ => some (1 + body.length + 1, pstr "<code>" ++ body ++ pstr "</code>")
        | [] => none
    else none
  | [] => none

/-- the bold rule: two asterisks, one or more non-asterisks, two
asterisks. -/
def matchBold (l : PStr) : Option (Nat × PStr) :=
  if startsWithS "**" l then
    let rest := l.drop 2
    let body := rest.takeWhile (fun pc => pc.1 ≠ '*')
    if body = [] then none
    else if startsWithS "**" (rest.drop body.length) then
      some (2 + body.length + 2, pstr "<strong>" ++ body ++ pstr "</strong>")
    else none
  else none

/-- the italic rule: one asterisk, one or more non-asterisks, one
asterisk. -/
def matchItalic (l : PStr) : Option (Nat × PStr) :=
  match l with
  | (c, _) :: rest =>
    if c = '*' then
      let body := rest.takeWhile (fun pc => pc.1 ≠ '*')
      if body = [] then none
      else
        match rest.drop body.length with
        | _ :: _ => some (1 + body.length + 1, pstr "<em>" ++ body ++ pstr "</em>")
        | [] => none
    else none
  | [] => none

/-- one line-anchored wrap rule: a literal marker at the start of the line
followed by at least one character (headers, blockquote, unordered list
items). -/
def lineWrap (marker : String) (openT closeT : String) (line : PStr) : PStr :=
  if startsWithS marker line && decide (marker.length < line.length) then
    pstr openT ++ line.drop marker.length ++ pstr closeT
  else line

/-- the ordered list item rule: digits, period, space, rest of line. -/
def lineOl (line : PStr) : PStr :=
  let digits := line.takeWhile (fun pc => between 48 57 pc.1.toNat)
  if !digits.isEmpty && startsWithS ". " (line.drop digits.length) &&
      decide (digits.length + 2 < line.length) then
    pstr "<li>" ++ line.drop (digits.length + 2) ++ pstr "</li>"
  else line

/-- the horizontal rule: a line that is exactly three dashes. -/
def lineHr (line : PStr) : PStr :=
  if chars line = ['-', '-', '-'] then pstr "<hr>" else line

/-- the link rule: bracketed label, parenthesized url. -/
def matchLink (l : PStr) : Option (Nat × PStr) :=
  match l with
  | (c, _) :: rest =>
    if c = '[' then
      let lab := rest.takeWhile (fun pc => pc.1 ≠ ']')
      if lab = [] then none
      else
        match rest.drop lab.length with
        | _ :: rest2 =>
          match rest2 with
          | (d, _) :: rest3 =>
            if d = '(' then
              let url := rest3.takeWhile (fun pc => pc.1 ≠ ')')
              if url = [] then none
              else
                match rest3.drop url.length with
                | _ :: _ =>
                  some (1 + lab.length + 2 + url.length + 1,
                    pstr "<a href=\"" ++ url ++
                      pstr "\" target=\"_blank\" rel=\"noopener\">" ++ lab ++ pstr "</a>")
                | [] => none
            else none
          | [] => none
        | [] => none
    else none
  | [] => none

/-- end index (exclusive) of the last occurrence of pat. -/
def lastOccEnd (pat : String) : PStr → Option Nat
  | [] => none
  | pc :: rest =>
    match lastOccEnd pat rest with
    | some k => some (k + 1)
    | none => if startsWithS pat (pc :: rest) then some pat.length else none

/-- absorb the optional newline after one li repetition. -/
def ulConsumed2 (l : PStr) (consumed : Nat) : Nat :=
  match l.drop consumed with
  | (c, _) :: _ => if c = '\n' then consumed + 1 else consumed
  | [] => consumed

/-- consumed length of one-or-more repetitions of
(li open, greedy non-terminator middle up to the last li close, optional
newline), as the list wrap rule matches. -/
def ulRunLength : Nat → PStr → Option Nat
  | 0, _ => none
  | fuel + 1, l =>
    if startsWithS "<li>" l then
      let region := (l.drop 4).takeWhile (fun pc => !isLineTermChar pc.1)
      match lastOccEnd "</li>" region with
      | some e =>
        let consumed2 := ulConsumed2 l (4 + e)
        match ulRunLength fuel (l.drop consumed2) with
        | some more => some (consumed2 + more)
        | none => some consumed2
      | none => none
    else none

/-- the list wrap rule: wrap a maximal run of li items in a ul element,
copying the matched run unchanged. -/
def matchUlWrap (l : PStr) : Option (Nat × PStr) :=
  match ulRunLength (l.length + 1) l with
  | some n => some (n, pstr "<ul>" ++ l.take n ++ pstr "</ul>")
  | none => none

/-- the paragraph break rule: a blank line becomes a paragraph boundary. -/
def matchParaBreak (l : PStr) : Option (Nat × PStr) :=
  if startsWithS "\n\n" l then some (2, pstr "</p><p>") else none

/-- cleanup rule: a p open tag, whitespace, then one of the given block
open tags collapses to the block tag. -/
def matchCleanupOpen (tags : List String) (l : PStr) : Option (Nat × PStr) :=
  if startsWithS "<p>" l then
    let rest := l.drop 3
    let ws := rest.takeWhile (fun pc => isJsSpace pc.1)
    let rest2 := rest.drop ws.length
    match tags.find? (fun t => startsWithS t rest2) with
    | some t => some (3 + ws.length + t.length, rest2.take t.length)
    | none => none
  else none

/-- cleanup rule: one of the given block close tags, whitespace, then a p
close tag collapses to the block tag. -/
def matchCleanupClose (tags : List String) (l : PStr) : Option (Nat × PStr) :=
  match tags.find? (fun t => startsWithS t l) with
  | some t =>
    let rest := l.drop t.length
    let ws := rest.takeWhile (fun pc => isJsSpace pc.1)
    if startsWithS "</p>" (rest.drop ws.length) then
      some (t.length + ws.length + 4, l.take t.length)
    else none
  | none => none

/-- cleanup rule: an empty paragraph disappears. -/
def matchCleanupEmptyP (l : PStr) : Option (Nat × PStr) :=
  if startsWithS "<p>" l then
    let rest := l.drop 3
    let ws := rest.takeWhile (fun pc => isJsSpace pc.1)
    if startsWithS "</p>" (rest.drop ws.length) then some (3 + ws.length + 4, [])
    else none
  else none

/-! ### The table rule -/

/-- the separator row body class: colon, dash, pipe, space. -/
def isTableSepClassChar (c : Char) : Bool := c = ':' || c = '-' || c = '|' || c = ' '

/-- a table row piece: pipe, non-newline middle ending at a final pipe,
then a newline (or, when allowed, the end of the string).  Returns the
consumed length including the newline. -/
def tableRowLength (allowEnd : Bool) (l : PStr) : Option Nat :=
  match l with
  | (c, _) :: _ =>
    if c = '|' then
      let region := l.takeWhile (fun pc => pc.1 ≠ '\n')
      if decide (2 ≤ region.length) &&
          (match region.getLast? with
            | some pc => pc.1 = '|'
            | none => false) then
        match l.drop region.length with
        | _ :: _ => some (region.length + 1)
        | [] => if allowEnd then some region.length else none
      else none
    else none
  | [] => none

/-- the separator row piece: pipe, a run of separator class characters
ending at a final pipe, then a newline. -/
def tableSepRowLength (l : PStr) : Option Nat :=
  match l with
  | (c, _) :: _ =>
    if c = '|' then
      let run := l.takeWhile (fun pc => isTableSepClassChar pc.1)
      if decide (3 ≤ run.length) &&
          (match run.getLast? with
            | some pc => pc.1 = '|'
            | none => false) then
        match l.drop run.length with
        | (nl, _) :: _ => if nl = '\n' then some (run.length + 1) else none
        | [] => none
      else none
    else none
  | [] => none

/-- one or more data rows, greedily. -/
def tableDataRowsLength : Nat → PStr → Option Nat
  | 0, _ => none
  | fuel + 1, l =>
    match tableRowLength true l with
    | some n =>
      match tableDataRowsLength fuel (l.drop n) with
      | some more => some (n + more)
      | none => some n
    | none => none

/-- split on the newline character (String.prototype.split with a newline
separator). -/
def splitOnNlF : Nat → PStr → List PStr
  | 0, l => [l]
  | fuel + 1, l =>
    let line := l.takeWhile (fun pc => pc.1 ≠ '\n')
    match l.drop line.length with
    | [] => [line]
    | _ :: rest => line :: splitOnNlF fuel rest

def splitOnNlP (l : PStr) : List PStr := splitOnNlF (l.length + 1) l

/-- split on the pipe character. -/
def splitOnPipeF : Nat → PStr → List PStr
  | 0, l => [l]
  | fuel + 1, l =>
    let cell := l.takeWhile (fun pc => pc.1 ≠ '|')
    match l.drop cell.length with
    | [] => [cell]
    | _ :: rest => cell :: splitOnPipeF fuel rest

def splitOnPipeP (l : PStr) : List PStr := splitOnPipeF (l.length + 1) l

/-- the table callback row parser: split on pipes, trim the cells, drop an
empty leading and trailing cell. -/
def parseRow (line : PStr) : List PStr :=
  let cells := (splitOnPipeP line).map trimP
  let cells :=
    match cells with
    | [] :: rest => rest
    | cs => cs
  match cells.getLast? with
  | some [] => cells.dropLast
  | _ => cells

/-- the separator row test of the table callback. -/
def isSeparatorLine (line : PStr) : Bool :=
  !line.isEmpty &&
    line.all (fun pc => isJsSpace pc.1 || pc.1 = '|' || pc.1 = ':' || pc.1 = '-')

/-- first separator row index, searched from index one as in the source. -/
def findSepIdxAux : Nat → List PStr → Option Nat
  | _, [] => none
  | i, line :: rest =>
    if decide (1 ≤ i) && isSeparatorLine line then some i
    else findSepIdxAux (i + 1) rest

/-- the table callback: trim the match, split into nonblank lines, locate
the separator row, emit header and data rows; return the match unchanged
when the shape is wrong. -/
def tableHtml (matched : PStr) : PStr :=
  let lines := (splitOnNlP (trimP matched)).filter (fun line => !(trimP line).isEmpty)
  if decide (lines.length < 2) then matched
  else
    match findSepIdxAux 0 lines with
    | none => matched
    | some i =>
      let headerCells := parseRow (lines.headD [])
      let headerHtml :=
        pstr "<tr>" ++
          (headerCells.map (fun cell => pstr "<th>" ++ cell ++ pstr "</th>")).flatten ++
          pstr "</tr>"
      let dataHtml :=
        ((lines.drop (i + 1)).map (fun line =>
          pstr "<tr>" ++
            ((parseRow line).map (fun cell => pstr "<td>" ++ cell ++ pstr "</td>")).flatten ++
            pstr "</tr>")).flatten
      pstr "<table>" ++ headerHtml ++ dataHtml ++ pstr "</table>"

/-- the table rule: header row, separator row, one or more data rows. -/
def matchTable (l : PStr) : Option (Nat × PStr) :=
  match tableRowLength false l with
  | some n1 =>
    match tableSepRowLength (l.drop n1) with
    | some n2 =>
      match tableDataRowsLength ((l.drop (n1 + n2)).length + 1) (l.drop (n1 + n2)) with
      | some n3 => some (n1 + n2 + n3, tableHtml (l.take (n1 + n2 + n3)))
      | none => none
    | none => none
  | none => none

/-! ### The full pipeline -/

def passCodeBlock : PStr → PStr := scanReplace matchCodeBlock
def passInlineCode : PStr → PStr := scanReplace matchInlineCode
def passBold : PStr → PStr := scanReplace matchBold
def passItalic : PStr → PStr := scanReplace matchItalic
def passH4 : PStr → PStr := mapLines (lineWrap "#### " "<h4>" "</h4>")
def passH3 : PStr → PStr := mapLines (lineWrap "### " "<h3>" "</h3>")
def passH2 : PStr → PStr := mapLines (lineWrap "## " "<h2>" "</h2>")
def passH1 : PStr → PStr := mapLines (lineWrap "# " "<h1>" "</h1>")
def passBlockquote : PStr → PStr := mapLines (lineWrap "&gt; " "<blockquote>" "</blockquote>")
def passLi : PStr → PStr := mapLines (lineWrap "- " "<li>" "</li>")
def passUlWrap : PStr → PStr := scanReplace matchUlWrap
def passOl : PStr → PStr := mapLines lineOl
def passLinks : PStr → PStr := scanReplace matchLink
def passHr : PStr → PStr := mapLines lineHr
def passTables : PStr → PStr := scanReplace matchTable
def passParaBreaks : PStr → PStr := scanReplace matchParaBreak
def passEmptyP : PStr → PStr := scanReplace matchCleanupEmptyP

/-- the replacement chain of parseMarkdown after escaping, in source
order. -/
def mdTransforms (l : PStr) : PStr :=
  let h := passCodeBlock l
  let h := passInlineCode h
  let h := passBold h
  let h := passItalic h
  let h := passH4 h
  let h := passH3 h
  let h := passH2 h
  let h := passH1 h
  let h := passBlockquote h
  let h := passLi h
  let h := passUlWrap h
  let h := passOl h
  let h := passLinks h
  let h := passHr h
  let h := passTables h
  let h := passParaBreaks h
  let h := pstr "<p>" ++ h ++ pstr "</p>"
  let h := passEmptyP h
  let h := scanReplace (matchCleanupOpen ["<h1>", "<h2>", "<h3>", "<h4>"]) h
  let h := scanReplace (matchCleanupClose ["</h1>", "</h2>", "</h3>", "</h4>"]) h
  let h := scanReplace (matchCleanupOpen ["<ul>"]) h
  let h := scanReplace (matchCleanupClose ["</ul>"]) h
  let h := scanReplace (matchCleanupOpen ["<pre>"]) h
  let h := scanReplace (matchCleanupClose ["</pre>"]) h
  let h := scanReplace (matchCleanupOpen ["<blockquote>"]) h
  let h := scanReplace (matchCleanupClose ["</blockquote>"]) h
  let h := scanReplace (matchCleanupOpen ["<hr>"]) h
  let h := scanReplace (matchCleanupClose ["<hr>"]) h
  let h := scanReplace (matchCleanupOpen ["<table>"]) h
  let h := scanReplace (matchCleanupClose ["</table>"]) h
  h

/-- content.js parseMarkdown over provenance strings: escape first, then
the replacement chain (empty input short-circuits to empty). -/
def parseMarkdownP (text : List Char) : PStr :=
  if text = [] then [] else mdTransforms (escapeHtmlP text)

def parseMarkdown (s : String) : String := ⟨chars (parseMarkdownP s.data)⟩

/-- count the occurrences of a pattern (at every position). -/
def countOccur (pat : List Char) : List Char → Nat
  | [] => 0
  | c :: rest => (if startsWithL pat (c :: rest) then 1 else 0) + countOccur pat rest

/-! ## Theorems: claim C9 -/

/-- C9: rendering the markdown input with a bold span and an inline code
span produces the strong element and the code element exactly once each,
with no residual double asterisks and no residual backticks. -/
theorem c9_markdown_bold_code_render :
    parseMarkdown "**bold** and `code`" =
      "<p><strong>bold</strong> and <code>code</code></p>" ∧
    countOccur ("<strong>bold</strong>").data (parseMarkdown "**bold** and `code`").data
      = 1 ∧
    countOccur ("<code>code</code>").data (parseMarkdown "**bold** and `code`").data
      = 1 ∧
    countOccur ("**").data (parseMarkdown "**bold** and `code`").data = 0 ∧
    (parseMarkdown "**bold** and `code`").data.all (fun c => c ≠ '`') = true := by
  refine ⟨by rfl, by rfl, by rfl, by rfl, by rfl⟩

/-! ## Entity integrity of the renderer output (towards claim C10)

escapeHtml turns every ampersand, less-than and greater-than of the input
into an entity; the invariant below states that every ampersand of a
working string begins a complete entity, and is preserved by every
replacement pass. -/

/-- the characters that can follow an ampersand inside one of the three
escape entities. -/
def entFollower (c : Char) : Bool :=
  c == 'l' || c == 't' || c == 'g' || c == 'a' || c == 'm' || c == 'p' || c == ';'

/-- the characters occurring in the three escape entities. -/
def isEntChar (c : Char) : Bool := c == '&' || entFollower c

/-- does the list begin with the tail of one of the three entities. -/
def entStart (l : PStr) : Bool :=
  startsWithS "lt;" l || startsWithS "gt;" l || startsWithS "amp;" l

/-- every ampersand begins a complete entity. -/
def entityOk : PStr → Bool
  | [] => true
  | pc :: rest => (if pc.1 = '&' then entStart rest else true) && entityOk rest

theorem startsWithL_length {pat l : List Char} (h : startsWithL pat l = true) :
    pat.length ≤ l.length := by
  induction pat generalizing l with
  | nil => simp
  | cons p ps ih =>
    cases l with
    | nil => simp [startsWithL] at h
    | cons x xs =>
      simp only [startsWithL, Bool.and_eq_true] at h
      simpa using Nat.succ_le_succ (ih h.2)

theorem startsWithL_append {pat a : List Char} (b : List Char)
    (h : startsWithL pat a = true) : startsWithL pat (a ++ b) = true := by
  induction pat generalizing a with
  | nil => simp [startsWithL]
  | cons p ps ih =>
    cases a with
    | nil => simp [startsWithL] at h
    | cons x xs =>
      simp only [startsWithL, Bool.and_eq_true] at h ⊢
      exact ⟨h.1, ih h.2⟩

theorem startsWithL_of_append_le {pat a b : List Char}
    (h : startsWithL pat (a ++ b) = true) (hle : pat.length ≤ a.length) :
    startsWithL pat a = true := by
  induction pat generalizing a with
  | nil => simp [startsWithL]
  | cons p ps ih =>
    cases a with
    | nil => simp at hle
    | cons x xs =>
      simp only [List.cons_append, startsWithL, Bool.and_eq_true] at h ⊢
      exact ⟨h.1, ih h.2 (Nat.le_of_succ_le_succ hle)⟩

theorem startsWithL_cross {pat a b : List Char}
    (h : startsWithL pat (a ++ b) = true) (hlt : a.length < pat.length) :
    ∃ c cs, b = c :: cs ∧ c ∈ pat := by
  induction pat generalizing a with
  | nil => simp at hlt
  | cons p ps ih =>
    cases a with
    | nil =>
      cases b with
      | nil => simp [startsWithL] at h
      | cons c cs =>
        simp only [List.nil_append, startsWithL, Bool.and_eq_true, beq_iff_eq] at h
        exact ⟨c, cs, rfl, by simp [h.1]⟩
    | cons x xs =>
      simp only [List.cons_append, startsWithL, Bool.and_eq_true] at h
      obtain ⟨c, cs, rfl, hc⟩ := ih h.2 (Nat.lt_of_succ_lt_succ hlt)
      exact ⟨c, cs, rfl, List.mem_cons_of_mem _ hc⟩

theorem startsWithL_take_mem {pat a b : List Char}
    (h : startsWithL pat (a ++ b) = true) :
    ∀ c ∈ a.take pat.length, c ∈ pat := by
  induction pat generalizing a with
  | nil => simp
  | cons p ps ih =>
    cases a with
    | nil => simp
    | cons x xs =>
      simp only [List.cons_append, startsWithL, Bool.and_eq_true, beq_iff_eq] at h
      intro c hc
      simp only [List.length_cons, List.take_succ_cons, List.mem_cons] at hc
      rcases hc with rfl | hc
      · simp [h.1]
      · exact List.mem_cons_of_mem _ (ih h.2 c hc)

theorem chars_append (a b : PStr) : chars (a ++ b) = chars a ++ chars b := by
  simp [chars]

theorem entFollowers_lt : ∀ c ∈ ("lt;").data, entFollower c = true := by decide

theorem entFollowers_gt : ∀ c ∈ ("gt;").data, entFollower c = true := by decide

theorem entFollowers_amp : ∀ c ∈ ("amp;").data, entFollower c = true := by decide

theorem entStart_append {a : PStr} (b : PStr) (h : entStart a = true) :
    entStart (a ++ b) = true := by
  simp only [entStart, startsWithS, chars_append, Bool.or_eq_true] at h ⊢
  rcases h with (h | h) | h
  · exact Or.inl (Or.inl (startsWithL_append _ h))
  · exact Or.inl (Or.inr (startsWithL_append _ h))
  · exact Or.inr (startsWithL_append _ h)

theorem entityOk_append {a b : PStr} (ha : entityOk a = true) (hb : entityOk b = true) :
    entityOk (a ++ b) = true := by
  induction a with
  | nil => simpa using hb
  | cons x a' ih =>
    simp only [entityOk, Bool.and_eq_true] at ha ⊢
    refine ⟨?_, ih ha.2⟩
    split
    · next hx =>
      rw [if_pos hx] at ha
      exact entStart_append b ha.1
    · rfl

theorem entityOk_tail {x : PChar} {l : PStr} (h : entityOk (x :: l) = true) :
    entityOk l = true := by
  simp only [entityOk, Bool.and_eq_true] at h
  exact h.2

theorem entityOk_drop (n : Nat) {l : PStr} (h : entityOk l = true) :
    entityOk (l.drop n) = true := by
  induction n generalizing l with
  | zero => simpa using h
  | succ n ih =>
    cases l with
    | nil => simp [entityOk]
    | cons x xs => exact ih (entityOk_tail h)

theorem entityOk_of_append_right {a b : PStr} (h : entityOk (a ++ b) = true) :
    entityOk b = true := by
  have := entityOk_drop a.length h
  rwa [List.drop_left] at this

theorem entityOk_of_no_amp {l : PStr} (h : ∀ pc ∈ l, pc.1 ≠ '&') :
    entityOk l = true := by
  induction l with
  | nil => rfl
  | cons x xs ih =>
    simp only [entityOk, Bool.and_eq_true]
    refine ⟨?_, ih fun pc hpc => h pc (List.mem_cons_of_mem _ hpc)⟩
    rw [if_neg (h x (List.mem_cons_self x xs))]

/-- an entity cannot cross from a into b when the head of b is not an
entity follower. -/
theorem entStart_of_append_head {a b : PStr} (h : entStart (a ++ b) = true)
    (hb : ∀ pc ∈ b.head?, entFollower pc.1 = false) : entStart a = true := by
  simp only [entStart, startsWithS, chars_append, Bool.or_eq_true] at h ⊢
  have cross : ∀ pat : List Char, (∀ c ∈ pat, entFollower c = true) →
      startsWithL pat (chars a ++ chars b) = true → startsWithL pat (chars a) = true := by
    intro pat hpat hsw
    by_cases hle : pat.length ≤ (chars a).length
    · exact startsWithL_of_append_le hsw hle
    · obtain ⟨c, cs, hbe, hc⟩ := startsWithL_cross hsw (Nat.lt_of_not_le hle)
      cases b with
      | nil => simp [chars] at hbe
      | cons pc rest =>
        have : entFollower pc.1 = false := hb pc (by simp)
        have hpc : c = pc.1 := by
          simp only [chars, List.map_cons, List.cons.injEq] at hbe
          exact hbe.1.symm
        rw [hpc] at hc
        rw [hpat _ hc] at this
        simp at this
  rcases h with (h | h) | h
  · exact Or.inl (Or.inl (cross _ entFollowers_lt h))
  · exact Or.inl (Or.inr (cross _ entFollowers_gt h))
  · exact Or.inr (cross _ entFollowers_amp h)

/-- cut a working string before a character that is not an entity
follower: the prefix keeps the invariant. -/
theorem entityOk_append_left_of_head {a b : PStr} (h : entityOk (a ++ b) = true)
    (hb : ∀ pc ∈ b.head?, entFollower pc.1 = false) : entityOk a = true := by
  induction a with
  | nil => rfl
  | cons x a' ih =>
    simp only [List.cons_append, entityOk, Bool.and_eq_true] at h ⊢
    refine ⟨?_, ih (entityOk_tail (by simpa [entityOk] using h))⟩
    rcases h with ⟨h1, _⟩
    split
    · next hx =>
      rw [if_pos hx] at h1
      exact entStart_of_append_head h1 hb
    · rfl

theorem entChars_lt : ∀ c ∈ ("lt;").data, isEntChar c = true := by decide

theorem entChars_gt : ∀ c ∈ ("gt;").data, isEntChar c = true := by decide

theorem entChars_amp : ∀ c ∈ ("amp;").data, isEntChar c = true := by decide

/-- an entity cannot cross from a into b when the last character of a is
not an entity character. -/
theorem entStart_of_append_last {a b : PStr} (h : entStart (a ++ b) = true)
    (ha : ∀ pc ∈ a.getLast?, isEntChar pc.1 = false) (hne : a ≠ []) :
    entStart a = true := by
  simp only [entStart, startsWithS, chars_append, Bool.or_eq_true] at h ⊢
  have cross : ∀ pat : List Char, (∀ c ∈ pat, isEntChar c = true) →
      startsWithL pat (chars a ++ chars b) = true → startsWithL pat (chars a) = true := by
    intro pat hpat hsw
    by_cases hle : pat.length ≤ (chars a).length
    · exact startsWithL_of_append_le hsw hle
    · exfalso
      have hlast := List.getLast?_eq_getLast a hne
      have hmem : a.getLast hne ∈ a := List.getLast_mem hne
      have hlc : (a.getLast hne).1 ∈ (chars a).take pat.length := by
        rw [List.take_of_length_le (Nat.le_of_lt (Nat.lt_of_not_le hle))]
        simp only [chars, List.mem_map]
        exact ⟨a.getLast hne, hmem, rfl⟩
      have hpatmem := startsWithL_take_mem hsw _ hlc
      have hec := hpat _ hpatmem
      have hfa : isEntChar (a.getLast hne).1 = false :=
        ha (a.getLast hne) (by rw [hlast]; rfl)
      rw [hfa] at hec
      simp at hec
  rcases h with (h | h) | h
  · exact Or.inl (Or.inl (cross _ entChars_lt h))
  · exact Or.inl (Or.inr (cross _ entChars_gt h))
  · exact Or.inr (cross _ entChars_amp h)

/-- cut a working string after a character that is not an entity
character: the prefix keeps the invariant. -/
theorem entityOk_append_left_of_last {a b : PStr} (h : entityOk (a ++ b) = true)
    (ha : ∀ pc ∈ a.getLast?, isEntChar pc.1 = false) : entityOk a = true := by
  induction a with
  | nil => rfl
  | cons x a' ih =>
    simp only [List.cons_append, entityOk, Bool.and_eq_true] at h ⊢
    have htail : entityOk (a' ++ b) = true := h.2
    cases a' with
    | nil =>
      refine ⟨?_, rfl⟩
      have hx : isEntChar x.1 = false := ha x (by simp)
      have hxa : x.1 ≠ '&' := by
        intro hc
        rw [hc] at hx
        simp [isEntChar] at hx
      rw [if_neg hxa]
    | cons y t =>
      have ha' : ∀ pc ∈ (y :: t).getLast?, isEntChar pc.1 = false := by
        intro pc hpc
        exact ha pc (by rwa [List.getLast?_cons_cons])
      refine ⟨?_, ih htail ha'⟩
      rcases h with ⟨h1, _⟩
      split
      · next hx =>
        rw [if_pos hx] at h1
        exact entStart_of_append_last h1 ha' (by simp)
      · rfl

theorem head_dropWhile_false (p : PChar → Bool) (l : PStr) :
    ∀ pc ∈ (l.dropWhile p).head?, p pc = false := by
  induction l with
  | nil => simp [List.dropWhile]
  | cons x xs ih =>
    by_cases hx : p x
    · simpa [List.dropWhile, hx] using ih
    · intro pc hpc
      simp only [List.dropWhile, hx, List.head?_cons, Option.mem_def,
        Option.some.injEq] at hpc
      rw [← hpc]
      simp [hx]

theorem entityOk_takeWhile (p : PChar → Bool) {l : PStr} (h : entityOk l = true)
    (hp : ∀ pc, p pc = false → entFollower pc.1 = false) :
    entityOk (l.takeWhile p) = true := by
  apply entityOk_append_left_of_head (b := l.dropWhile p)
  · rw [List.takeWhile_append_dropWhile]
    exact h
  · intro pc hpc
    exact hp pc (head_dropWhile_false p l pc hpc)

theorem follower_not_space {c : Char} (hc : entFollower c = true) : isJsSpace c = false := by
  simp only [entFollower, Bool.or_eq_true, beq_iff_eq] at hc
  rcases hc with ((((((rfl | rfl) | rfl) | rfl) | rfl) | rfl) | rfl) <;> rfl

theorem space_not_follower {c : Char} (hc : isJsSpace c = true) : entFollower c = false := by
  by_cases h : entFollower c = true
  · rw [follower_not_space h] at hc
    cases hc
  · simpa using h

theorem follower_not_lineterm {c : Char} (hc : entFollower c = true) :
    isLineTermChar c = false := by
  simp only [entFollower, Bool.or_eq_true, beq_iff_eq] at hc
  rcases hc with ((((((rfl | rfl) | rfl) | rfl) | rfl) | rfl) | rfl) <;> rfl

theorem lineterm_not_follower {c : Char} (hc : isLineTermChar c = true) :
    entFollower c = false := by
  by_cases h : entFollower c = true
  · rw [follower_not_lineterm h] at hc
    cases hc
  · simpa using h

theorem lineterm_not_amp {c : Char} (hc : isLineTermChar c = true) : c ≠ '&' := by
  intro h
  subst h
  cases hc

theorem entityOk_trimP {l : PStr} (h : entityOk l = true) : entityOk (trimP l) = true := by
  unfold trimP
  have hm : entityOk (l.dropWhile (fun pc => isJsSpace pc.1)) = true := by
    apply entityOk_of_append_right (a := l.takeWhile (fun pc => isJsSpace pc.1))
    rw [List.takeWhile_append_dropWhile]
    exact h
  set m := l.dropWhile (fun pc => isJsSpace pc.1) with hmdef
  apply entityOk_append_left_of_head
    (b := (m.reverse.takeWhile (fun pc => isJsSpace pc.1)).reverse)
  · have : (m.reverse.dropWhile (fun pc => isJsSpace pc.1)).reverse ++
        (m.reverse.takeWhile (fun pc => isJsSpace pc.1)).reverse = m := by
      rw [← List.reverse_append, List.takeWhile_append_dropWhile, List.reverse_reverse]
    rw [this]
    exact hm
  · intro pc hpc
    have hmem : pc ∈ (m.reverse.takeWhile (fun pc => isJsSpace pc.1)).reverse :=
      List.mem_of_mem_head? hpc
    rw [List.mem_reverse] at hmem
    have := List.mem_takeWhile_imp hmem
    exact space_not_follower this

theorem startsWithL_take_eq {pat l : List Char} (h : startsWithL pat l = true) :
    l.take pat.length = pat := by
  induction pat generalizing l with
  | nil => simp
  | cons p ps ih =>
    cases l with
    | nil => simp [startsWithL] at h
    | cons x xs =>
      simp only [startsWithL, Bool.and_eq_true, beq_iff_eq] at h
      simp [h.1, ih h.2]

theorem startsWithL_self_append (pat q : List Char) :
    startsWithL pat (pat ++ q) = true := by
  induction pat with
  | nil => rfl
  | cons p ps ih => simp [startsWithL, ih]

theorem chars_take (l : PStr) (n : Nat) : chars (l.take n) = (chars l).take n := by
  simp [chars, List.map_take]

theorem chars_drop (l : PStr) (n : Nat) : chars (l.drop n) = (chars l).drop n := by
  simp [chars, List.map_drop]

/-! ### Generic preservation lemmas for the replacement combinators -/

/-- matchers never fire at an entity-follower character (every rule starts
at a specific punctuation character). -/
def MatcherSkipsFollowers (f : PStr → Option (Nat × PStr)) : Prop :=
  ∀ l pc, l.head? = some pc → entFollower pc.1 = true → f l = none

/-- matcher replacements keep the entity invariant. -/
def MatcherEntOk (f : PStr → Option (Nat × PStr)) : Prop :=
  ∀ l n r, entityOk l = true → f l = some (n, r) → entityOk r = true

/-- matcher replacements only copy characters of the match or emit
template characters. -/
def MatcherMemOk (f : PStr → Option (Nat × PStr)) : Prop :=
  ∀ l n r, f l = some (n, r) → ∀ pc ∈ r, pc ∈ l ∨ pc.2 = false

theorem scanReplaceF_cons (f : PStr → Option (Nat × PStr)) (fuel : Nat)
    (c : PChar) (rest : PStr) :
    scanReplaceF f (fuel + 1) (c :: rest) =
      match f (c :: rest) with
      | some (n, r) => r ++ scanReplaceF f fuel (List.drop (n - 1) rest)
      | none => c :: scanReplaceF f fuel rest := rfl

theorem scanReplaceF_cons_none (f : PStr → Option (Nat × PStr)) (fuel : Nat)
    (c : PChar) (rest : PStr) (h : f (c :: rest) = none) :
    scanReplaceF f (fuel + 1) (c :: rest) = c :: scanReplaceF f fuel rest := by
  rw [scanReplaceF_cons, h]

theorem scanReplaceF_cons_some (f : PStr → Option (Nat × PStr)) (fuel : Nat)
    (c : PChar) (rest : PStr) (n : Nat) (r : PStr) (h : f (c :: rest) = some (n, r)) :
    scanReplaceF f (fuel + 1) (c :: rest) =
      r ++ scanReplaceF f fuel (List.drop (n - 1) rest) := by
  rw [scanReplaceF_cons, h]

theorem scan_keep_follower_prefix (f : PStr → Option (Nat × PStr))
    (hf2 : MatcherSkipsFollowers f) :
    ∀ (pat : PStr) (fuel : Nat) (l : PStr), (∀ pc ∈ pat, entFollower pc.1 = true) →
      pat.length ≤ fuel →
      scanReplaceF f fuel (pat ++ l) = pat ++ scanReplaceF f (fuel - pat.length) l := by
  intro pat
  induction pat with
  | nil => intro fuel l _ _; simp
  | cons p ps ih =>
    intro fuel l hpat hle
    cases fuel with
    | zero => simp at hle
    | succ fu =>
      have hnone : f (p :: (ps ++ l)) = none :=
        hf2 _ p rfl (hpat p (List.mem_cons_self p ps))
      rw [List.cons_append, scanReplaceF_cons_none f fu _ _ hnone]
      have hle' : ps.length ≤ fu := Nat.le_of_succ_le_succ (by simpa using hle)
      rw [ih fu l (fun pc hpc => hpat pc (List.mem_cons_of_mem _ hpc)) hle']
      simp [Nat.succ_sub_succ]

theorem scanReplaceF_ent (f : PStr → Option (Nat × PStr))
    (hf1 : MatcherEntOk f) (hf2 : MatcherSkipsFollowers f) :
    ∀ fuel l, l.length ≤ fuel → entityOk l = true →
      entityOk (scanReplaceF f fuel l) = true := by
  intro fuel
  induction fuel using Nat.strong_induction_on with
  | _ fuel ih =>
    intro l hl h
    cases fuel with
    | zero =>
      cases l with
      | nil => exact h
      | cons c rest => simp at hl
    | succ fu =>
      cases l with
      | nil => rfl
      | cons c rest =>
        have hrest : entityOk rest = true := entityOk_tail h
        have hlrest : rest.length ≤ fu := by simpa using hl
        cases hm : f (c :: rest) with
        | some nr =>
          obtain ⟨n, r⟩ := nr
          rw [scanReplaceF_cons_some f fu c rest n r hm]
          refine entityOk_append (hf1 _ _ _ h hm) ?_
          refine ih fu (Nat.lt_succ_self fu) _ ?_ (entityOk_drop _ hrest)
          calc (List.drop (n - 1) rest).length ≤ rest.length := by
                simp [Nat.sub_le]
            _ ≤ fu := hlrest
        | none =>
          rw [scanReplaceF_cons_none f fu c rest hm]
          by_cases hc : c.1 = '&'
          · have h1 : entStart rest = true := by
              simp only [entityOk, Bool.and_eq_true, if_pos hc] at h
              exact h.1
            simp only [entityOk, Bool.and_eq_true, if_pos hc]
            -- the entity tail is preserved at the head of the scan of rest
            simp only [entStart, startsWithS, Bool.or_eq_true] at h1
            have main : ∀ pat : List Char, pat ≠ [] →
                (∀ c' ∈ pat, entFollower c' = true) →
                startsWithL pat (chars rest) = true →
                startsWithL pat (chars (scanReplaceF f fu rest)) = true ∧
                entityOk (scanReplaceF f fu rest) = true := by
              intro pat hne hpat hsw
              have hklen : pat.length ≤ rest.length := by
                have := startsWithL_length hsw
                simpa [chars] using this
              have hsplit : rest.take pat.length ++ rest.drop pat.length = rest :=
                List.take_append_drop _ _
              have hcharstake : chars (rest.take pat.length) = pat := by
                rw [chars_take]
                exact startsWithL_take_eq hsw
              have hmemfol : ∀ pc ∈ rest.take pat.length, entFollower pc.1 = true := by
                intro pc hpc
                apply hpat
                rw [← hcharstake]
                simp only [chars, List.mem_map]
                exact ⟨pc, hpc, rfl⟩
              have hkeep := scan_keep_follower_prefix f hf2 (rest.take pat.length) fu
                (rest.drop pat.length) hmemfol
                (by
                  rw [List.length_take]
                  exact le_trans (Nat.min_le_right _ _) hlrest)
              rw [hsplit] at hkeep
              rw [hkeep]
              constructor
              · rw [chars_append, hcharstake]
                exact startsWithL_self_append _ _
              · refine entityOk_append ?_ ?_
                · apply entityOk_of_no_amp
                  intro pc hpc
                  have := hmemfol pc hpc
                  intro hamp
                  rw [hamp] at this
                  exact absurd this (by decide)
                · refine ih (fu - (rest.take pat.length).length)
                    (by omega) _ ?_ (entityOk_drop _ hrest)
                  rw [List.length_drop, List.length_take, Nat.min_eq_left hklen]
                  omega
            rcases h1 with (h1 | h1) | h1
            · have := main ("lt;").data (by simp) entFollowers_lt h1
              exact ⟨by simp [entStart, startsWithS, this.1], this.2⟩
            · have := main ("gt;").data (by simp) entFollowers_gt h1
              exact ⟨by simp [entStart, startsWithS, this.1], this.2⟩
            · have := main ("amp;").data (by simp) entFollowers_amp h1
              exact ⟨by simp [entStart, startsWithS, this.1], this.2⟩
          · simp only [entityOk, Bool.and_eq_true, if_neg hc]
            exact ⟨trivial, ih fu (Nat.lt_succ_self fu) rest hlrest hrest⟩

theorem scanReplace_ent (f : PStr → Option (Nat × PStr))
    (hf1 : MatcherEntOk f) (hf2 : MatcherSkipsFollowers f)
    {l : PStr} (h : entityOk l = true) : entityOk (scanReplace f l) = true :=
  scanReplaceF_ent f hf1 hf2 l.length l (Nat.le_refl _) h

theorem scanReplaceF_mem (f : PStr → Option (Nat × PStr)) (hf : MatcherMemOk f) :
    ∀ fuel l pc, pc ∈ scanReplaceF f fuel l → pc ∈ l ∨ pc.2 = false := by
  intro fuel
  induction fuel with
  | zero => intro l pc h; exact Or.inl h
  | succ fu ih =>
    intro l pc h
    cases l with
    | nil => simp [scanReplaceF] at h
    | cons c rest =>
      cases hm : f (c :: rest) with
      | some nr =>
        obtain ⟨n, r⟩ := nr
        rw [scanReplaceF, hm] at h
        rcases List.mem_append.mp h with h | h
        · exact hf _ _ _ hm pc h
        · rcases ih _ pc h with h | h
          · exact Or.inl (List.mem_cons_of_mem _ (List.drop_subset _ _ h))
          · exact Or.inr h
      | none =>
        rw [scanReplaceF, hm] at h
        rcases List.mem_cons.mp h with h | h
        · exact Or.inl (h ▸ List.mem_cons_self c rest)
        · rcases ih _ pc h with h | h
          · exact Or.inl (List.mem_cons_of_mem _ h)
          · exact Or.inr h

theorem scanReplace_mem (f : PStr → Option (Nat × PStr)) (hf : MatcherMemOk f)
    {l : PStr} {pc : PChar} (h : pc ∈ scanReplace f l) : pc ∈ l ∨ pc.2 = false :=
  scanReplaceF_mem f hf l.length l pc h

theorem drop_takeWhile_length (p : PChar → Bool) (l : PStr) :
    l.drop (l.takeWhile p).length = l.dropWhile p := by
  induction l with
  | nil => rfl
  | cons x xs ih =>
    by_cases hx : p x
    · simpa [List.takeWhile, List.dropWhile, hx] using ih
    · simp [List.takeWhile, List.dropWhile, hx]

theorem mapLinesF_cons (g : PStr → PStr) (fuel : Nat) (l : PStr) :
    mapLinesF g (fuel + 1) l =
      match l.dropWhile (fun pc => !isLineTermChar pc.1) with
      | [] => g (l.takeWhile (fun pc => !isLineTermChar pc.1))
      | t :: rest => g (l.takeWhile (fun pc => !isLineTermChar pc.1)) ++ [t] ++
          mapLinesF g fuel rest := by
  simp only [mapLinesF]
  rw [drop_takeWhile_length]

theorem mapLinesF_ent (g : PStr → PStr)
    (hg : ∀ line, entityOk line = true → entityOk (g line) = true) :
    ∀ fuel l, entityOk l = true → entityOk (mapLinesF g fuel l) = true := by
  intro fuel
  induction fuel with
  | zero => intro l h; exact h
  | succ fu ih =>
    intro l h
    rw [mapLinesF_cons]
    have hline : entityOk (l.takeWhile (fun pc => !isLineTermChar pc.1)) = true := by
      apply entityOk_takeWhile _ h
      intro pc hpc
      simp only [Bool.not_eq_false'] at hpc
      exact lineterm_not_follower hpc
    have hsplit : l.takeWhile (fun pc => !isLineTermChar pc.1) ++
        l.dropWhile (fun pc => !isLineTermChar pc.1) = l :=
      List.takeWhile_append_dropWhile _ _
    cases hd : l.dropWhile (fun pc => !isLineTermChar pc.1) with
    | nil => exact hg _ hline
    | cons t rest =>
      have htrest : entityOk (t :: rest) = true := by
        rw [← hd]
        apply entityOk_of_append_right (a := l.takeWhile (fun pc => !isLineTermChar pc.1))
        rw [hsplit]
        exact h
      have htc : isLineTermChar t.1 = true := by
        have := head_dropWhile_false (fun pc => !isLineTermChar pc.1) l t
          (by rw [hd]; rfl)
        simpa using this
      refine entityOk_append (entityOk_append (hg _ hline) ?_)
        (ih rest (entityOk_tail htrest))
      simp only [entityOk, Bool.and_eq_true]
      exact ⟨by rw [if_neg (lineterm_not_amp htc)], trivial⟩

theorem mapLines_ent (g : PStr → PStr)
    (hg : ∀ line, entityOk line = true → entityOk (g line) = true)
    {l : PStr} (h : entityOk l = true) : entityOk (mapLines g l) = true :=
  mapLinesF_ent g hg (l.length + 1) l h

theorem mapLinesF_mem (g : PStr → PStr)
    (hg : ∀ line pc, pc ∈ g line → pc ∈ line ∨ pc.2 = false) :
    ∀ fuel l pc, pc ∈ mapLinesF g fuel l → pc ∈ l ∨ pc.2 = false := by
  intro fuel
  induction fuel with
  | zero => intro l pc h; exact Or.inl h
  | succ fu ih =>
    intro l pc h
    rw [mapLinesF_cons] at h
    have hsub1 : l.takeWhile (fun pc => !isLineTermChar pc.1) ⊆ l :=
      List.takeWhile_subset _
    cases hd : l.dropWhile (fun pc => !isLineTermChar pc.1) with
    | nil =>
      rw [hd] at h
      rcases hg _ pc h with h | h
      · exact Or.inl (hsub1 h)
      · exact Or.inr h
    | cons t rest =>
      have hsub2 : t :: rest ⊆ l := by
        rw [← hd]
        exact List.dropWhile_subset _
      rw [hd] at h
      rcases List.mem_append.mp h with h | h
      · rcases List.mem_append.mp h with h | h
        · rcases hg _ pc h with h | h
          · exact Or.inl (hsub1 h)
          · exact Or.inr h
        · simp only [List.mem_singleton] at h
          subst h
          exact Or.inl (hsub2 (List.mem_cons_self _ _))
      · rcases ih rest pc h with h | h
        · exact Or.inl (hsub2 (List.mem_cons_of_mem _ h))
        · exact Or.inr h

theorem mapLines_mem (g : PStr → PStr)
    (hg : ∀ line pc, pc ∈ g line → pc ∈ line ∨ pc.2 = false)
    {l : PStr} {pc : PChar} (h : pc ∈ mapLines g l) : pc ∈ l ∨ pc.2 = false :=
  mapLinesF_mem g hg (l.length + 1) l pc h

/-! ### Support lemmas for the individual rules -/

theorem mem_pstr {s : String} {pc : PChar} (h : pc ∈ pstr s) : pc.2 = false := by
  simp only [pstr, List.mem_map] at h
  obtain ⟨c, _, rfl⟩ := h
  rfl

theorem trimP_subset (l : PStr) : trimP l ⊆ l := by
  intro pc h
  unfold trimP at h
  rw [List.mem_reverse] at h
  have h2 := List.dropWhile_subset _ h
  rw [List.mem_reverse] at h2
  exact List.dropWhile_subset _ h2

theorem findTripleTick_spec {l : PStr} {k : Nat} (h : findTripleTick l = some k) :
    startsWithS "```" (l.drop k) = true := by
  induction l generalizing k with
  | nil => simp [findTripleTick] at h
  | cons pc rest ih =>
    by_cases hs : startsWithS "```" (pc :: rest) = true
    · rw [findTripleTick, if_pos hs] at h
      cases h
      exact hs
    · rw [findTripleTick, if_neg hs] at h
      cases hr : findTripleTick rest with
      | none => rw [hr] at h; cases h
      | some k' =>
        rw [hr] at h
        cases h
        simpa using ih hr

theorem startsWithS_head {t : String} {l : PStr} {c : Char} {cs : List Char}
    (ht : t.data = c :: cs) (h : startsWithS t l = true) :
    ∃ pc rest, l = pc :: rest ∧ pc.1 = c := by
  cases l with
  | nil =>
    rw [startsWithS, ht] at h
    simp [chars, startsWithL] at h
  | cons pc rest =>
    rw [startsWithS, ht] at h
    simp only [chars, List.map_cons, startsWithL, Bool.and_eq_true, beq_iff_eq] at h
    exact ⟨pc, rest, rfl, h.1.symm⟩

theorem follower_ne {c : Char} (hc : entFollower c = true) :
    c ≠ '`' ∧ c ≠ '*' ∧ c ≠ '<' ∧ c ≠ '[' ∧ c ≠ '|' ∧ c ≠ '\n' ∧ c ≠ '&' ∧ c ≠ '-' ∧
      c ≠ '#' := by
  simp only [entFollower, Bool.or_eq_true, beq_iff_eq] at hc
  rcases hc with ((((((rfl | rfl) | rfl) | rfl) | rfl) | rfl) | rfl) <;> exact (by decide)

theorem entityOk_flatten {xs : List PStr} (h : ∀ x ∈ xs, entityOk x = true) :
    entityOk xs.flatten = true := by
  induction xs with
  | nil => rfl
  | cons x rest ih =>
    simp only [List.flatten_cons]
    exact entityOk_append (h x (List.mem_cons_self _ _))
      (ih fun y hy => h y (List.mem_cons_of_mem _ hy))

theorem flatten_subset {xs : List PStr} {pc : PChar} (h : pc ∈ xs.flatten) :
    ∃ x ∈ xs, pc ∈ x := by
  simpa using List.mem_flatten.mp h

theorem splitOnNlF_ent {fuel : Nat} {l : PStr} (h : entityOk l = true) :
    ∀ piece ∈ splitOnNlF fuel l, entityOk piece = true := by
  induction fuel generalizing l with
  | zero =>
    intro piece hp
    simp only [splitOnNlF, List.mem_singleton] at hp
    exact hp ▸ h
  | succ fu ih =>
    intro piece hp
    have hline : entityOk (l.takeWhile (fun pc => pc.1 ≠ '\n')) = true := by
      apply entityOk_takeWhile _ h
      intro pc hpc
      simp only [decide_eq_false_iff_not, not_not] at hpc
      rw [hpc]
      decide
    simp only [splitOnNlF] at hp
    rw [drop_takeWhile_length] at hp
    cases hd : l.dropWhile (fun pc => pc.1 ≠ '\n') with
    | nil =>
      rw [hd] at hp
      simp only [List.mem_singleton] at hp
      exact hp ▸ hline
    | cons t rest =>
      rw [hd] at hp
      rcases List.mem_cons.mp hp with hp | hp
      · exact hp ▸ hline
      · have htrest : entityOk (t :: rest) = true := by
          rw [← hd]
          apply entityOk_of_append_right (a := l.takeWhile (fun pc => pc.1 ≠ '\n'))
          rw [List.takeWhile_append_dropWhile]
          exact h
        exact ih (entityOk_tail htrest) piece hp

theorem splitOnNlF_subset {fuel : Nat} {l : PStr} :
    ∀ piece ∈ splitOnNlF fuel l, piece ⊆ l := by
  induction fuel generalizing l with
  | zero =>
    intro piece hp
    simp only [splitOnNlF, List.mem_singleton] at hp
    exact hp ▸ fun _ hx => hx
  | succ fu ih =>
    intro piece hp
    simp only [splitOnNlF] at hp
    rw [drop_takeWhile_length] at hp
    cases hd : l.dropWhile (fun pc => pc.1 ≠ '\n') with
    | nil =>
      rw [hd] at hp
      simp only [List.mem_singleton] at hp
      exact hp ▸ List.takeWhile_subset _
    | cons t rest =>
      rw [hd] at hp
      have hsub : t :: rest ⊆ l := by
        rw [← hd]
        exact List.dropWhile_subset _
      rcases List.mem_cons.mp hp with hp | hp
      · exact hp ▸ List.takeWhile_subset _
      · intro x hx
        exact hsub (List.mem_cons_of_mem _ (ih piece hp hx))

theorem splitOnPipeF_ent {fuel : Nat} {l : PStr} (h : entityOk l = true) :
    ∀ piece ∈ splitOnPipeF fuel l, entityOk piece = true := by
  induction fuel generalizing l with
  | zero =>
    intro piece hp
    simp only [splitOnPipeF, List.mem_singleton] at hp
    exact hp ▸ h
  | succ fu ih =>
    intro piece hp
    have hline : entityOk (l.takeWhile (fun pc => pc.1 ≠ '|')) = true := by
      apply entityOk_takeWhile _ h
      intro pc hpc
      simp only [decide_eq_false_iff_not, not_not] at hpc
      rw [hpc]
      decide
    simp only [splitOnPipeF] at hp
    rw [drop_takeWhile_length] at hp
    cases hd : l.dropWhile (fun pc => pc.1 ≠ '|') with
    | nil =>
      rw [hd] at hp
      simp only [List.mem_singleton] at hp
      exact hp ▸ hline
    | cons t rest =>
      rw [hd] at hp
      rcases List.mem_cons.mp hp with hp | hp
      · exact hp ▸ hline
      · have htrest : entityOk (t :: rest) = true := by
          rw [← hd]
          apply entityOk_of_append_right (a := l.takeWhile (fun pc => pc.1 ≠ '|'))
          rw [List.takeWhile_append_dropWhile]
          exact h
        exact ih (entityOk_tail htrest) piece hp

theorem splitOnPipeF_subset {fuel : Nat} {l : PStr} :
    ∀ piece ∈ splitOnPipeF fuel l, piece ⊆ l := by
  induction fuel generalizing l with
  | zero =>
    intro piece hp
    simp only [splitOnPipeF, List.mem_singleton] at hp
    exact hp ▸ fun _ hx => hx
  | succ fu ih =>
    intro piece hp
    simp only [splitOnPipeF] at hp
    rw [drop_takeWhile_length] at hp
    cases hd : l.dropWhile (fun pc => pc.1 ≠ '|') with
    | nil =>
      rw [hd] at hp
      simp only [List.mem_singleton] at hp
      exact hp ▸ List.takeWhile_subset _
    | cons t rest =>
      rw [hd] at hp
      have hsub : t :: rest ⊆ l := by
        rw [← hd]
        exact List.dropWhile_subset _
      rcases List.mem_cons.mp hp with hp | hp
      · exact hp ▸ List.takeWhile_subset _
      · intro x hx
        exact hsub (List.mem_cons_of_mem _ (ih piece hp hx))

theorem parseRow_ent {line : PStr} (h : entityOk line = true) :
    ∀ cell ∈ parseRow line, entityOk cell = true := by
  intro cell hc
  have base : ∀ cell ∈ (splitOnPipeP line).map trimP, entityOk cell = true := by
    intro c hcm
    simp only [List.mem_map] at hcm
    obtain ⟨piece, hpiece, rfl⟩ := hcm
    exact entityOk_trimP (splitOnPipeF_ent h piece hpiece)
  simp only [parseRow] at hc
  have step1 : ∀ c ∈ (match (splitOnPipeP line).map trimP with
      | [] :: rest => rest
      | cs => cs), entityOk c = true := by
    intro c hcm
    split at hcm
    · next rest heq =>
      apply base
      rw [heq]
      exact List.mem_cons_of_mem _ hcm
    · next => exact base c hcm
  split at hc
  · next heq => exact step1 cell (List.dropLast_subset _ hc)
  · next => exact step1 cell hc

theorem parseRow_subset {line : PStr} : ∀ cell ∈ parseRow line, cell ⊆ line := by
  intro cell hc
  have base : ∀ c ∈ (splitOnPipeP line).map trimP, c ⊆ line := by
    intro c hcm
    simp only [List.mem_map] at hcm
    obtain ⟨piece, hpiece, rfl⟩ := hcm
    intro x hx
    exact splitOnPipeF_subset piece hpiece (trimP_subset _ hx)
  simp only [parseRow] at hc
  have step1 : ∀ c ∈ (match (splitOnPipeP line).map trimP with
      | [] :: rest => rest
      | cs => cs), c ⊆ line := by
    intro c hcm
    split at hcm
    · next rest heq =>
      apply base
      rw [heq]
      exact List.mem_cons_of_mem _ hcm
    · next => exact base c hcm
  split at hc
  · next heq => exact step1 cell (List.dropLast_subset _ hc)
  · next => exact step1 cell hc

/-! ### The rules skip entity-follower characters -/

theorem matchCodeBlock_skips : MatcherSkipsFollowers matchCodeBlock := by
  intro l pc hl hf
  cases l with
  | nil => cases hl
  | cons c rest =>
    simp only [List.head?_cons, Option.some.injEq] at hl
    subst hl
    have h1 : c.1 ≠ '`' := (follower_ne hf).1
    have h2 : ('`' : Char) ≠ c.1 := fun h => h1 h.symm
    simp [matchCodeBlock, startsWithS, chars, startsWithL, h2]

theorem matchInlineCode_skips : MatcherSkipsFollowers matchInlineCode := by
  intro l pc hl hf
  cases l with
  | nil => cases hl
  | cons c rest =>
    simp only [List.head?_cons, Option.some.injEq] at hl
    subst hl
    obtain ⟨c0, o0⟩ := c
    have h1 : c0 ≠ '`' := (follower_ne hf).1
    simp [matchInlineCode, h1]

theorem matchBold_skips : MatcherSkipsFollowers matchBold := by
  intro l pc hl hf
  cases l with
  | nil => cases hl
  | cons c rest =>
    simp only [List.head?_cons, Option.some.injEq] at hl
    subst hl
    have h1 : c.1 ≠ '*' := (follower_ne hf).2.1
    have h2 : ('*' : Char) ≠ c.1 := fun h => h1 h.symm
    simp [matchBold, startsWithS, chars, startsWithL, h2]

theorem matchItalic_skips : MatcherSkipsFollowers matchItalic := by
  intro l pc hl hf
  cases l with
  | nil => cases hl
  | cons c rest =>
    simp only [List.head?_cons, Option.some.injEq] at hl
    subst hl
    obtain ⟨c0, o0⟩ := c
    have h1 : c0 ≠ '*' := (follower_ne hf).2.1
    simp [matchItalic, h1]

theorem matchLink_skips : MatcherSkipsFollowers matchLink := by
  intro l pc hl hf
  cases l with
  | nil => cases hl
  | cons c rest =>
    simp only [List.head?_cons, Option.some.injEq] at hl
    subst hl
    obtain ⟨c0, o0⟩ := c
    have h1 : c0 ≠ '[' := (follower_ne hf).2.2.2.1
    simp [matchLink, h1]

theorem matchUlWrap_skips : MatcherSkipsFollowers matchUlWrap := by
  intro l pc hl hf
  cases l with
  | nil => cases hl
  | cons c rest =>
    simp only [List.head?_cons, Option.some.injEq] at hl
    subst hl
    have h1 : c.1 ≠ '<' := (follower_ne hf).2.2.1
    have h2 : ('<' : Char) ≠ c.1 := fun h => h1 h.symm
    simp [matchUlWrap, ulRunLength, List.length_cons, startsWithS, chars,
      startsWithL, h2]

theorem matchParaBreak_skips : MatcherSkipsFollowers matchParaBreak := by
  intro l pc hl hf
  cases l with
  | nil => cases hl
  | cons c rest =>
    simp only [List.head?_cons, Option.some.injEq] at hl
    subst hl
    have h1 : c.1 ≠ '\n' := (follower_ne hf).2.2.2.2.2.1
    have h2 : ('\n' : Char) ≠ c.1 := fun h => h1 h.symm
    simp [matchParaBreak, startsWithS, chars, startsWithL, h2]

theorem matchCleanupOpen_skips (tags : List String) :
    MatcherSkipsFollowers (matchCleanupOpen tags) := by
  intro l pc hl hf
  cases l with
  | nil => cases hl
  | cons c rest =>
    simp only [List.head?_cons, Option.some.injEq] at hl
    subst hl
    have h1 : c.1 ≠ '<' := (follower_ne hf).2.2.1
    have h2 : ('<' : Char) ≠ c.1 := fun h => h1 h.symm
    simp [matchCleanupOpen, startsWithS, chars, startsWithL, h2]

theorem matchCleanupEmptyP_skips : MatcherSkipsFollowers matchCleanupEmptyP := by
  intro l pc hl hf
  cases l with
  | nil => cases hl
  | cons c rest =>
    simp only [List.head?_cons, Option.some.injEq] at hl
    subst hl
    have h1 : c.1 ≠ '<' := (follower_ne hf).2.2.1
    have h2 : ('<' : Char) ≠ c.1 := fun h => h1 h.symm
    simp [matchCleanupEmptyP, startsWithS, chars, startsWithL, h2]

theorem matchCleanupClose_skips (tags : List String)
    (htags : ∀ t ∈ tags, ∃ cs, t.data = '<' :: cs) :
    MatcherSkipsFollowers (matchCleanupClose tags) := by
  intro l pc hl hf
  cases l with
  | nil => cases hl
  | cons c rest =>
    simp only [List.head?_cons, Option.some.injEq] at hl
    subst hl
    have h1 : c.1 ≠ '<' := (follower_ne hf).2.2.1
    have hfind : tags.find? (fun t => startsWithS t (c :: rest)) = none := by
      rw [List.find?_eq_none]
      intro t ht
      obtain ⟨cs, hcs⟩ := htags t ht
      have h2 : ('<' : Char) ≠ c.1 := fun h => h1 h.symm
      simp [startsWithS, hcs, chars, startsWithL, h2]
    simp [matchCleanupClose, hfind]

theorem matchTable_skips : MatcherSkipsFollowers matchTable := by
  intro l pc hl hf
  cases l with
  | nil => cases hl
  | cons c rest =>
    simp only [List.head?_cons, Option.some.injEq] at hl
    subst hl
    obtain ⟨c0, o0⟩ := c
    have h1 : c0 ≠ '|' := (follower_ne hf).2.2.2.2.1
    simp [matchTable, tableRowLength, h1]

/-! ### Replacements of the simple rules preserve the invariants -/

theorem entityOk_body_ne (ch : Char) (hch : entFollower ch = false) {l : PStr}
    (hl : entityOk l = true) :
    entityOk (l.takeWhile (fun pc => pc.1 ≠ ch)) = true := by
  apply entityOk_takeWhile _ hl
  intro pc hpc
  simp only [decide_eq_false_iff_not, not_not] at hpc
  rw [hpc]
  exact hch

theorem matchInlineCode_ent : MatcherEntOk matchInlineCode := by
  intro l n r hl hf
  cases l with
  | nil => simp [matchInlineCode] at hf
  | cons c rest =>
    obtain ⟨c0, o0⟩ := c
    simp only [matchInlineCode] at hf
    split at hf
    · split at hf
      · cases hf
      · split at hf
        · simp only [Option.some.injEq, Prod.mk.injEq] at hf
          obtain ⟨hn, hr⟩ := hf
          subst hr
          exact entityOk_append (entityOk_append (by decide)
            (entityOk_body_ne '`' (by decide) (entityOk_tail hl))) (by decide)
        · cases hf
    · cases hf

theorem matchInlineCode_mem : MatcherMemOk matchInlineCode := by
  intro l n r hf pc hpc
  cases l with
  | nil => simp [matchInlineCode] at hf
  | cons c rest =>
    obtain ⟨c0, o0⟩ := c
    simp only [matchInlineCode] at hf
    split at hf
    · split at hf
      · cases hf
      · split at hf
        · simp only [Option.some.injEq, Prod.mk.injEq] at hf
          obtain ⟨hn, hr⟩ := hf
          subst hr
          rcases List.mem_append.mp hpc with h | h
          · rcases List.mem_append.mp h with h | h
            · exact Or.inr (mem_pstr h)
            · exact Or.inl (List.mem_cons_of_mem _ (List.takeWhile_subset _ h))
          · exact Or.inr (mem_pstr h)
        · cases hf
    · cases hf

theorem matchBold_ent : MatcherEntOk matchBold := by
  intro l n r hl hf
  simp only [matchBold] at hf
  split at hf
  · split at hf
    · cases hf
    · split at hf
      · simp only [Option.some.injEq, Prod.mk.injEq] at hf
        obtain ⟨hn, hr⟩ := hf
        subst hr
        exact entityOk_append (entityOk_append (by decide)
          (entityOk_body_ne '*' (by decide) (entityOk_drop 2 hl))) (by decide)
      · cases hf
  · cases hf

theorem matchBold_mem : MatcherMemOk matchBold := by
  intro l n r hf pc hpc
  simp only [matchBold] at hf
  split at hf
  · split at hf
    · cases hf
    · split at hf
      · simp only [Option.some.injEq, Prod.mk.injEq] at hf
        obtain ⟨hn, hr⟩ := hf
        subst hr
        rcases List.mem_append.mp hpc with h | h
        · rcases List.mem_append.mp h with h | h
          · exact Or.inr (mem_pstr h)
          · exact Or.inl (List.drop_subset _ _ (List.takeWhile_subset _ h))
        · exact Or.inr (mem_pstr h)
      · cases hf
  · cases hf

theorem matchItalic_ent : MatcherEntOk matchItalic := by
  intro l n r hl hf
  cases l with
  | nil => simp [matchItalic] at hf
  | cons c rest =>
    obtain ⟨c0, o0⟩ := c
    simp only [matchItalic] at hf
    split at hf
    · split at hf
      · cases hf
      · split at hf
        · simp only [Option.some.injEq, Prod.mk.injEq] at hf
          obtain ⟨hn, hr⟩ := hf
          subst hr
          exact entityOk_append (entityOk_append (by decide)
            (entityOk_body_ne '*' (by decide) (entityOk_tail hl))) (by decide)
        · cases hf
    · cases hf

theorem matchItalic_mem : MatcherMemOk matchItalic := by
  intro l n r hf pc hpc
  cases l with
  | nil => simp [matchItalic] at hf
  | cons c rest =>
    obtain ⟨c0, o0⟩ := c
    simp only [matchItalic] at hf
    split at hf
    · split at hf
      · cases hf
      · split at hf
        · simp only [Option.some.injEq, Prod.mk.injEq] at hf
          obtain ⟨hn, hr⟩ := hf
          subst hr
          rcases List.mem_append.mp hpc with h | h
          · rcases List.mem_append.mp h with h | h
            · exact Or.inr (mem_pstr h)
            · exact Or.inl (List.mem_cons_of_mem _ (List.takeWhile_subset _ h))
          · exact Or.inr (mem_pstr h)
        · cases hf
    · cases hf

theorem matchParaBreak_ent : MatcherEntOk matchParaBreak := by
  intro l n r hl hf
  simp only [matchParaBreak] at hf
  split at hf
  · simp only [Option.some.injEq, Prod.mk.injEq] at hf
    obtain ⟨hn, hr⟩ := hf
    subst hr
    decide
  · cases hf

theorem matchParaBreak_mem : MatcherMemOk matchParaBreak := by
  intro l n r hf pc hpc
  simp only [matchParaBreak] at hf
  split at hf
  · simp only [Option.some.injEq, Prod.mk.injEq] at hf
    obtain ⟨hn, hr⟩ := hf
    subst hr
    exact Or.inr (mem_pstr hpc)
  · cases hf

theorem matchCleanupEmptyP_ent : MatcherEntOk matchCleanupEmptyP := by
  intro l n r hl hf
  simp only [matchCleanupEmptyP] at hf
  split at hf
  · split at hf
    · simp only [Option.some.injEq, Prod.mk.injEq] at hf
      obtain ⟨hn, hr⟩ := hf
      subst hr
      rfl
    · cases hf
  · cases hf

theorem matchCleanupEmptyP_mem : MatcherMemOk matchCleanupEmptyP := by
  intro l n r hf pc hpc
  simp only [matchCleanupEmptyP] at hf
  split at hf
  · split at hf
    · simp only [Option.some.injEq, Prod.mk.injEq] at hf
      obtain ⟨hn, hr⟩ := hf
      subst hr
      simp at hpc
    · cases hf
  · cases hf

theorem chars_take_of_startsWith {t : String} {l : PStr} (h : startsWithS t l = true) :
    chars (l.take t.length) = t.data := by
  rw [chars_take]
  have : t.length = t.data.length := rfl
  rw [this]
  exact startsWithL_take_eq h

theorem take_tag_no_amp {t : String} {l : PStr} (h : startsWithS t l = true)
    (ht : ∀ ch ∈ t.data, ch ≠ '&') :
    ∀ pc ∈ l.take t.length, pc.1 ≠ '&' := by
  intro pc hpc
  apply ht
  rw [← chars_take_of_startsWith h]
  simp only [chars, List.mem_map]
  exact ⟨pc, hpc, rfl⟩

theorem matchCleanupOpen_ent (tags : List String)
    (htags : ∀ t ∈ tags, ∀ ch ∈ t.data, ch ≠ '&') :
    MatcherEntOk (matchCleanupOpen tags) := by
  intro l n r hl hf
  simp only [matchCleanupOpen] at hf
  split at hf
  · cases hfind : tags.find? (fun t => startsWithS t
        ((l.drop 3).drop ((l.drop 3).takeWhile (fun pc => isJsSpace pc.1)).length)) with
    | none => rw [hfind] at hf; cases hf
    | some t =>
      rw [hfind] at hf
      simp only [Option.some.injEq, Prod.mk.injEq] at hf
      obtain ⟨hn, hr⟩ := hf
      subst hr
      have hsw := List.find?_some hfind
      have htmem := List.mem_of_find?_eq_some hfind
      exact entityOk_of_no_amp (take_tag_no_amp hsw (htags t htmem))
  · cases hf

theorem matchCleanupOpen_mem (tags : List String) :
    MatcherMemOk (matchCleanupOpen tags) := by
  intro l n r hf pc hpc
  simp only [matchCleanupOpen] at hf
  split at hf
  · cases hfind : tags.find? (fun t => startsWithS t
        ((l.drop 3).drop ((l.drop 3).takeWhile (fun pc => isJsSpace pc.1)).length)) with
    | none => rw [hfind] at hf; cases hf
    | some t =>
      rw [hfind] at hf
      simp only [Option.some.injEq, Prod.mk.injEq] at hf
      obtain ⟨hn, hr⟩ := hf
      subst hr
      exact Or.inl (List.drop_subset _ _ (List.drop_subset _ _
        (List.take_subset _ _ hpc)))
  · cases hf

theorem matchCleanupClose_ent (tags : List String)
    (htags : ∀ t ∈ tags, ∀ ch ∈ t.data, ch ≠ '&') :
    MatcherEntOk (matchCleanupClose tags) := by
  intro l n r hl hf
  simp only [matchCleanupClose] at hf
  split at hf
  · rename_i t heq
    split at hf
    · simp only [Option.some.injEq, Prod.mk.injEq] at hf
      obtain ⟨hn, hr⟩ := hf
      subst hr
      have hsw := List.find?_some heq
      have htmem := List.mem_of_find?_eq_some heq
      exact entityOk_of_no_amp (take_tag_no_amp hsw (htags t htmem))
    · cases hf
  · cases hf

theorem matchCleanupClose_mem (tags : List String) :
    MatcherMemOk (matchCleanupClose tags) := by
  intro l n r hf pc hpc
  simp only [matchCleanupClose] at hf
  split at hf
  · rename_i t heq
    split at hf
    · simp only [Option.some.injEq, Prod.mk.injEq] at hf
      obtain ⟨hn, hr⟩ := hf
      subst hr
      exact Or.inl (List.take_subset _ _ hpc)
    · cases hf
  · cases hf

theorem matchCodeBlock_ent : MatcherEntOk matchCodeBlock := by
  intro l n r hl hf
  simp only [matchCodeBlock] at hf
  split at hf
  · rename_i hsw
    split at hf
    · rename_i c snd body0 heq
      split at hf
      · rename_i hnl
        split at hf
        · rename_i k heq2
          simp only [Option.some.injEq, Prod.mk.injEq] at hf
          obtain ⟨hn, hr⟩ := hf
          subst hr
          have hbody0 : entityOk body0 = true := by
            have h1 : entityOk ((l.drop 3).drop
                ((l.drop 3).takeWhile (fun pc => isWordChar pc.1)).length) = true :=
              entityOk_drop _ (entityOk_drop 3 hl)
            rw [heq] at h1
            exact entityOk_tail h1
          have htake : entityOk (body0.take k) = true := by
            obtain ⟨pc0, rest0, hb0, hpc0⟩ :=
              startsWithS_head (t := "```") rfl (findTripleTick_spec heq2)
            apply entityOk_append_left_of_head (b := body0.drop k)
            · rw [List.take_append_drop]
              exact hbody0
            · intro pc hpc
              rw [hb0] at hpc
              simp only [List.head?_cons, Option.mem_def, Option.some.injEq] at hpc
              rw [← hpc, hpc0]
              decide
          have hlang : entityOk (if (l.drop 3).takeWhile (fun pc => isWordChar pc.1) = []
              then pstr "plaintext"
              else (l.drop 3).takeWhile (fun pc => isWordChar pc.1)) = true := by
            split
            · decide
            · apply entityOk_of_no_amp
              intro pc hpc
              have hw := List.mem_takeWhile_imp hpc
              intro hamp
              rw [hamp] at hw
              exact absurd hw (by decide)
          refine entityOk_append (entityOk_append (entityOk_append (entityOk_append
            (by decide) hlang) (by decide)) (entityOk_trimP htake)) (by decide)
        · cases hf
      · cases hf
    · cases hf
  · cases hf

theorem matchCodeBlock_mem : MatcherMemOk matchCodeBlock := by
  intro l n r hf pc hpc
  simp only [matchCodeBlock] at hf
  split at hf
  · rename_i hsw
    split at hf
    · rename_i c snd body0 heq
      split at hf
      · rename_i hnl
        split at hf
        · rename_i k heq2
          simp only [Option.some.injEq, Prod.mk.injEq] at hf
          obtain ⟨hn, hr⟩ := hf
          subst hr
          have hbody0 : body0 ⊆ l := by
            intro x hx
            have : x ∈ (l.drop 3).drop
                ((l.drop 3).takeWhile (fun pc => isWordChar pc.1)).length := by
              rw [heq]
              exact List.mem_cons_of_mem _ hx
            exact List.drop_subset _ _ (List.drop_subset _ _ this)
          rcases List.mem_append.mp hpc with h | h
          · rcases List.mem_append.mp h with h | h
            · rcases List.mem_append.mp h with h | h
              · rcases List.mem_append.mp h with h | h
                · exact Or.inr (mem_pstr h)
                · split at h
                  · exact Or.inr (mem_pstr h)
                  · exact Or.inl (List.drop_subset _ _ (List.takeWhile_subset _ h))
              · exact Or.inr (mem_pstr h)
            · exact Or.inl (hbody0 (List.take_subset _ _ (trimP_subset _ h)))
          · exact Or.inr (mem_pstr h)
        · cases hf
      · cases hf
    · cases hf
  · cases hf

theorem matchLink_ent : MatcherEntOk matchLink := by
  intro l n r hl hf
  cases l with
  | nil => simp [matchLink] at hf
  | cons c rest =>
    obtain ⟨c0, o0⟩ := c
    simp only [matchLink] at hf
    split at hf
    · split at hf
      · cases hf
      · split at hf
        · rename_i aux1 x rest2 heq
          split at hf
          · rename_i aux2 d o2 rest3
            split at hf
            · split at hf
              · cases hf
              · split at hf
                · simp only [Option.some.injEq, Prod.mk.injEq] at hf
                  obtain ⟨hn, hr⟩ := hf
                  subst hr
                  have hrest : entityOk rest = true := entityOk_tail hl
                  have hrest3 : entityOk rest3 = true := by
                    have h1 : entityOk (rest.drop
                        (rest.takeWhile (fun pc => decide (pc.1 ≠ ']'))).length) = true :=
                      entityOk_drop _ hrest
                    rw [heq] at h1
                    exact entityOk_tail (entityOk_tail h1)
                  refine entityOk_append (entityOk_append (entityOk_append
                    (entityOk_append (by decide)
                      (entityOk_body_ne ')' (by decide) hrest3)) (by decide))
                    (entityOk_body_ne ']' (by decide) hrest)) (by decide)
                · cases hf
            · cases hf
          · cases hf
        · cases hf
    · cases hf

theorem matchLink_mem : MatcherMemOk matchLink := by
  intro l n r hf pc hpc
  cases l with
  | nil => simp [matchLink] at hf
  | cons c rest =>
    obtain ⟨c0, o0⟩ := c
    simp only [matchLink] at hf
    split at hf
    · split at hf
      · cases hf
      · split at hf
        · rename_i aux1 x rest2 heq
          split at hf
          · rename_i aux2 d o2 rest3
            split at hf
            · split at hf
              · cases hf
              · split at hf
                · simp only [Option.some.injEq, Prod.mk.injEq] at hf
                  obtain ⟨hn, hr⟩ := hf
                  subst hr
                  have hrest3 : rest3 ⊆ rest := by
                    intro y hy
                    have h1 : y ∈ (x :: (d, o2) :: rest3 : PStr) :=
                      List.mem_cons_of_mem _ (List.mem_cons_of_mem _ hy)
                    rw [← heq] at h1
                    exact List.drop_subset _ _ h1
                  rcases List.mem_append.mp hpc with h | h
                  · rcases List.mem_append.mp h with h | h
                    · rcases List.mem_append.mp h with h | h
                      · rcases List.mem_append.mp h with h | h
                        · exact Or.inr (mem_pstr h)
                        · exact Or.inl (List.mem_cons_of_mem _
                            (hrest3 (List.takeWhile_subset _ h)))
                      · exact Or.inr (mem_pstr h)
                    · exact Or.inl (List.mem_cons_of_mem _ (List.takeWhile_subset _ h))
                  · exact Or.inr (mem_pstr h)
                · cases hf
            · cases hf
          · cases hf
        · cases hf
    · cases hf

/-! ### The list wrap rule and the table rule -/

theorem take_prefix_takeWhile (p : PChar → Bool) (x : PStr) {e : Nat}
    (he : e ≤ (x.takeWhile p).length) : x.take e = (x.takeWhile p).take e := by
  conv_lhs => rw [← List.takeWhile_append_dropWhile (p := p) (l := x)]
  rw [List.take_append_eq_append_take, Nat.sub_eq_zero_of_le he, List.take_zero,
    List.append_nil]

theorem take_length_takeWhile (p : PChar → Bool) (x : PStr) :
    x.take (x.takeWhile p).length = x.takeWhile p := by
  rw [take_prefix_takeWhile p x (Nat.le_refl _), List.take_length]

theorem getLast?_of_chars {tok : PStr} {cs : List Char} {c : Char}
    (h : chars tok = cs) (hc : cs.getLast? = some c) :
    ∃ pc, tok.getLast? = some pc ∧ pc.1 = c := by
  induction tok generalizing cs with
  | nil =>
    subst h
    cases hc
  | cons x xs ih =>
    cases xs with
    | nil =>
      subst h
      simp only [chars, List.map_cons, List.map_nil, List.getLast?_singleton,
        Option.some.injEq] at hc
      exact ⟨x, rfl, hc⟩
    | cons y ys =>
      subst h
      rw [List.getLast?_cons_cons]
      apply @ih (chars (y :: ys)) rfl
      rw [← hc]
      simp only [chars, List.map_cons]
      rw [List.getLast?_cons_cons]

theorem lastOccEnd_spec {pat : String} {l : PStr} {k : Nat}
    (h : lastOccEnd pat l = some k) :
    k ≤ l.length ∧ ∃ pre tok, l.take k = pre ++ tok ∧ chars tok = pat.data := by
  induction l generalizing k with
  | nil => cases h
  | cons pc rest ih =>
    rw [lastOccEnd] at h
    cases hr : lastOccEnd pat rest with
    | some k' =>
      rw [hr] at h
      cases h
      obtain ⟨hle, pre, tok, htake, hchars⟩ := ih hr
      refine ⟨by simpa using Nat.succ_le_succ hle, pc :: pre, tok, ?_, hchars⟩
      simp [List.take_succ_cons, htake]
    | none =>
      rw [hr] at h
      by_cases hsw : startsWithS pat (pc :: rest) = true
      · rw [if_pos hsw] at h
        cases h
        constructor
        · have := @startsWithL_length pat.data (chars (pc :: rest)) hsw
          simpa [chars] using this
        · exact ⟨[], (pc :: rest).take pat.length, by simp,
            chars_take_of_startsWith hsw⟩
      · rw [if_neg hsw] at h
        cases h

theorem getLast?_append_right {a b : PStr} {pc : PChar} (h : b.getLast? = some pc) :
    (a ++ b).getLast? = some pc := by
  rw [List.getLast?_append, h]
  rfl

theorem ulConsumed2_spec (l : PStr) (consumed : Nat) :
    ulConsumed2 l consumed = consumed ∨
    (∃ pc t, l.drop consumed = pc :: t ∧ pc.1 = '\n' ∧
      ulConsumed2 l consumed = consumed + 1) := by
  unfold ulConsumed2
  cases hd : l.drop consumed with
  | nil => left; rfl
  | cons pc t =>
    obtain ⟨c0, o0⟩ := pc
    by_cases hc : c0 = '\n'
    · right
      exact ⟨(c0, o0), t, rfl, hc, by simp [hc]⟩
    · left
      simp [hc]

theorem ulRunLength_last : ∀ {fuel : Nat} {l : PStr} {n : Nat},
    ulRunLength fuel l = some n →
    ∃ pc, (l.take n).getLast? = some pc ∧ (pc.1 = '>' ∨ pc.1 = '\n') := by
  intro fuel
  induction fuel with
  | zero => intro l n h; cases h
  | succ fu ih =>
    intro l n h
    simp only [ulRunLength] at h
    split at h
    · rename_i hsw
      split at h
      · rename_i e heq
        obtain ⟨hle, pre, tok, htake, hchars⟩ := lastOccEnd_spec heq
        have htok_ne : tok ≠ [] := by
          intro hcon
          rw [hcon] at hchars
          simp [chars] at hchars
        have htake4e : l.take (4 + e) = l.take 4 ++ (pre ++ tok) := by
          rw [List.take_add, ← htake]
          congr 1
          exact take_prefix_takeWhile _ _ hle
        have hlast4e : ∃ pc, (l.take (4 + e)).getLast? = some pc ∧ pc.1 = '>' := by
          obtain ⟨pc, hpc, hpc1⟩ := getLast?_of_chars hchars (c := '>') (by rfl)
          refine ⟨pc, ?_, hpc1⟩
          rw [htake4e]
          exact getLast?_append_right (getLast?_append_right hpc)
        have hc2 : ∃ pc, (l.take (ulConsumed2 l (4 + e))).getLast? = some pc ∧
            (pc.1 = '>' ∨ pc.1 = '\n') := by
          rcases ulConsumed2_spec l (4 + e) with hcc | ⟨pc2, t2, hdrop, hnl, hcc⟩
          · rw [hcc]
            obtain ⟨pc, h1, h2⟩ := hlast4e
            exact ⟨pc, h1, Or.inl h2⟩
          · rw [hcc]
            refine ⟨pc2, ?_, Or.inr hnl⟩
            rw [List.take_add, hdrop]
            exact getLast?_append_right rfl
        split at h
        · rename_i more hrec
          obtain ⟨pcm, hlastm, hcm⟩ := ih hrec
          cases h
          refine ⟨pcm, ?_, hcm⟩
          rw [List.take_add]
          exact getLast?_append_right hlastm
        · cases h
          exact hc2
      · cases h
    · cases h

theorem matchUlWrap_ent : MatcherEntOk matchUlWrap := by
  intro l n r hl hf
  simp only [matchUlWrap] at hf
  split at hf
  · rename_i m heq
    simp only [Option.some.injEq, Prod.mk.injEq] at hf
    obtain ⟨hn, hr⟩ := hf
    subst hr
    obtain ⟨pc0, hlast, hc0⟩ := ulRunLength_last heq
    have htake : entityOk (l.take m) = true := by
      apply entityOk_append_left_of_last (b := l.drop m)
      · rw [List.take_append_drop]
        exact hl
      · intro pc hpc
        rw [hlast] at hpc
        simp only [Option.mem_def, Option.some.injEq] at hpc
        subst hpc
        rcases hc0 with h | h <;> rw [h] <;> decide
    exact entityOk_append (entityOk_append (by decide) htake) (by decide)
  · cases hf

theorem matchUlWrap_mem : MatcherMemOk matchUlWrap := by
  intro l n r hf pc hpc
  simp only [matchUlWrap] at hf
  split at hf
  · rename_i m heq
    simp only [Option.some.injEq, Prod.mk.injEq] at hf
    obtain ⟨hn, hr⟩ := hf
    subst hr
    rcases List.mem_append.mp hpc with h | h
    · rcases List.mem_append.mp h with h | h
      · exact Or.inr (mem_pstr h)
      · exact Or.inl (List.take_subset _ _ h)
    · exact Or.inr (mem_pstr h)
  · cases hf

/-- a row piece consumes at most the whole string, and either reaches its
end or ends at a newline. -/
theorem tableRowLength_spec {allowEnd : Bool} {l : PStr} {k : Nat}
    (h : tableRowLength allowEnd l = some k) :
    k ≤ l.length ∧
      (k = l.length ∨ ∃ pc, (l.take k).getLast? = some pc ∧ pc.1 = '\n') := by
  cases l with
  | nil => cases h
  | cons c rest =>
    obtain ⟨c0, o0⟩ := c
    simp only [tableRowLength] at h
    split at h
    · split at h
      · split at h
        · rename_i d t2 heq
          cases h
          have hlt : (((c0, o0) :: rest : PStr).takeWhile
              (fun pc => decide (pc.1 ≠ '\n'))).length < ((c0, o0) :: rest : PStr).length := by
            have hd := congrArg List.length heq
            simp only [List.length_drop, List.length_cons] at hd ⊢
            omega
          refine ⟨hlt, Or.inr ⟨d, ?_, ?_⟩⟩
          · rw [List.take_add, take_length_takeWhile]
            have h1 : (((c0, o0) :: rest : PStr).drop
                (((c0, o0) :: rest : PStr).takeWhile
                  (fun pc => decide (pc.1 ≠ '\n'))).length).take 1 = [d] := by
              rw [heq]
              rfl
            rw [h1]
            exact getLast?_append_right rfl
          · have h2 : ((c0, o0) :: rest : PStr).drop
                (((c0, o0) :: rest : PStr).takeWhile
                  (fun pc => decide (pc.1 ≠ '\n'))).length =
                ((c0, o0) :: rest : PStr).dropWhile (fun pc => decide (pc.1 ≠ '\n')) :=
              drop_takeWhile_length _ _
            rw [h2] at heq
            have := head_dropWhile_false (fun pc => decide (pc.1 ≠ '\n'))
              ((c0, o0) :: rest) d (by rw [heq]; rfl)
            simpa using this
        · rename_i heq
          split at h
          · cases h
            have hle : (((c0, o0) :: rest : PStr).takeWhile
                (fun pc => decide (pc.1 ≠ '\n'))).length ≤ ((c0, o0) :: rest : PStr).length :=
              (List.takeWhile_prefix _).length_le
            have hge : ((c0, o0) :: rest : PStr).length ≤ (((c0, o0) :: rest : PStr).takeWhile
                (fun pc => decide (pc.1 ≠ '\n'))).length := by
              have hd := congrArg List.length heq
              simp only [List.length_drop, List.length_nil, List.length_cons] at hd ⊢
              omega
            exact ⟨hle, Or.inl (Nat.le_antisymm hle hge)⟩
          · cases h
      · cases h
    · cases h

/-- the separator row piece consumes at most the whole string and ends at a
newline. -/
theorem tableSepRowLength_spec {l : PStr} {k : Nat}
    (h : tableSepRowLength l = some k) :
    k ≤ l.length ∧ ∃ pc, (l.take k).getLast? = some pc ∧ pc.1 = '\n' := by
  cases l with
  | nil => cases h
  | cons c rest =>
    obtain ⟨c0, o0⟩ := c
    simp only [tableSepRowLength] at h
    split at h
    · split at h
      · split at h
        · rename_i nl o1 t2 heq
          split at h
          · rename_i hnl
            cases h
            have hlt : (((c0, o0) :: rest : PStr).takeWhile
                (fun pc => isTableSepClassChar pc.1)).length <
                ((c0, o0) :: rest : PStr).length := by
              have hd := congrArg List.length heq
              simp only [List.length_drop, List.length_cons] at hd ⊢
              omega
            refine ⟨hlt, ⟨(nl, o1), ?_, hnl⟩⟩
            rw [List.take_add, take_length_takeWhile]
            have h1 : (((c0, o0) :: rest : PStr).drop
                (((c0, o0) :: rest : PStr).takeWhile
                  (fun pc => isTableSepClassChar pc.1)).length).take 1 = [(nl, o1)] := by
              rw [heq]
              rfl
            rw [h1]
            exact getLast?_append_right rfl
          · cases h
        · cases h
      · cases h
    · cases h

/-- one or more greedy data rows consume at most the whole string, and either
reach its end or end at a newline. -/
theorem tableDataRowsLength_spec : ∀ {fuel : Nat} {l : PStr} {n : Nat},
    tableDataRowsLength fuel l = some n →
    n ≤ l.length ∧
      (n = l.length ∨ ∃ pc, (l.take n).getLast? = some pc ∧ pc.1 = '\n') := by
  intro fuel
  induction fuel with
  | zero =>
    intro l n h
    cases h
  | succ fu ih =>
    intro l n h
    simp only [tableDataRowsLength] at h
    split at h
    · rename_i rl hrow
      split at h
      · rename_i more hrec
        cases h
        obtain ⟨hrl_le, _⟩ := tableRowLength_spec hrow
        obtain ⟨hm_le, hm_end⟩ := ih hrec
        have hdl : ((l.drop rl : PStr)).length = l.length - rl := by simp
        constructor
        · omega
        · rcases hm_end with hm | ⟨pc, hlast, hnl⟩
          · left
            omega
          · right
            refine ⟨pc, ?_, hnl⟩
            rw [List.take_add]
            exact getLast?_append_right hlast
      · cases h
        exact tableRowLength_spec hrow
    · cases h

/-- the default head of a list of strings is one of its members. -/
theorem headD_subset (xs : List PStr) :
    ∀ q ∈ xs.headD ([] : PStr), ∃ x ∈ xs, q ∈ x := by
  cases xs with
  | nil =>
    intro q hq
    simp at hq
  | cons a t =>
    intro q hq
    exact ⟨a, List.mem_cons_self _ _, hq⟩

theorem headD_ent {xs : List PStr} (h : ∀ x ∈ xs, entityOk x = true) :
    entityOk (xs.headD ([] : PStr)) = true := by
  cases xs with
  | nil => rfl
  | cons a t => exact h a (List.mem_cons_self _ _)

/-- the table callback keeps the entity invariant. -/
theorem tableHtml_ent {m : PStr} (hm : entityOk m = true) :
    entityOk (tableHtml m) = true := by
  have hlines : ∀ line ∈ (splitOnNlP (trimP m)).filter
      (fun line => !(trimP line).isEmpty), entityOk line = true := by
    intro line hline
    have h1 := (List.mem_filter.mp hline).1
    simp only [splitOnNlP] at h1
    exact splitOnNlF_ent (entityOk_trimP hm) line h1
  simp only [tableHtml]
  split
  · exact hm
  · split
    · exact hm
    · refine entityOk_append (entityOk_append (entityOk_append (by decide) ?_) ?_)
        (by decide)
      · refine entityOk_append (entityOk_append (by decide) ?_) (by decide)
        apply entityOk_flatten
        intro x hx
        simp only [List.mem_map] at hx
        obtain ⟨cell, hcell, rfl⟩ := hx
        exact entityOk_append (entityOk_append (by decide)
          (parseRow_ent (headD_ent hlines) cell hcell)) (by decide)
      · apply entityOk_flatten
        intro x hx
        simp only [List.mem_map] at hx
        obtain ⟨line, hline, rfl⟩ := hx
        have hline2 : entityOk line = true :=
          hlines line (List.drop_subset _ _ hline)
        refine entityOk_append (entityOk_append (by decide) ?_) (by decide)
        apply entityOk_flatten
        intro y hy
        simp only [List.mem_map] at hy
        obtain ⟨cell, hcell, rfl⟩ := hy
        exact entityOk_append (entityOk_append (by decide)
          (parseRow_ent hline2 cell hcell)) (by decide)

/-- the table callback only copies characters of the match or emits template
characters. -/
theorem tableHtml_mem {m : PStr} :
    ∀ pc ∈ tableHtml m, pc ∈ m ∨ pc.2 = false := by
  have hsub : ∀ line ∈ (splitOnNlP (trimP m)).filter
      (fun line => !(trimP line).isEmpty), line ⊆ m := by
    intro line hline
    have h1 := (List.mem_filter.mp hline).1
    simp only [splitOnNlP] at h1
    intro q hq
    exact trimP_subset m (splitOnNlF_subset line h1 hq)
  intro pc hpc
  simp only [tableHtml] at hpc
  split at hpc
  · exact Or.inl hpc
  · split at hpc
    · exact Or.inl hpc
    · rcases List.mem_append.mp hpc with h | h
      · rcases List.mem_append.mp h with h | h
        · rcases List.mem_append.mp h with h | h
          · exact Or.inr (mem_pstr h)
          · rcases List.mem_append.mp h with h | h
            · rcases List.mem_append.mp h with h | h
              · exact Or.inr (mem_pstr h)
              · obtain ⟨x, hx, hpcx⟩ := flatten_subset h
                simp only [List.mem_map] at hx
                obtain ⟨cell, hcell, rfl⟩ := hx
                rcases List.mem_append.mp hpcx with h2 | h2
                · rcases List.mem_append.mp h2 with h2 | h2
                  · exact Or.inr (mem_pstr h2)
                  · have hq := parseRow_subset cell hcell h2
                    obtain ⟨line, hline, hql⟩ := headD_subset _ pc hq
                    exact Or.inl (hsub line hline hql)
                · exact Or.inr (mem_pstr h2)
            · exact Or.inr (mem_pstr h)
        · obtain ⟨x, hx, hpcx⟩ := flatten_subset h
          simp only [List.mem_map] at hx
          obtain ⟨line, hline, rfl⟩ := hx
          have hlinem : line ⊆ m := hsub line (List.drop_subset _ _ hline)
          rcases List.mem_append.mp hpcx with h2 | h2
          · rcases List.mem_append.mp h2 with h2 | h2
            · exact Or.inr (mem_pstr h2)
            · obtain ⟨y, hy, hpcy⟩ := flatten_subset h2
              simp only [List.mem_map] at hy
              obtain ⟨cell, hcell, rfl⟩ := hy
              rcases List.mem_append.mp hpcy with h3 | h3
              · rcases List.mem_append.mp h3 with h3 | h3
                · exact Or.inr (mem_pstr h3)
                · exact Or.inl (hlinem (parseRow_subset cell hcell h3))
              · exact Or.inr (mem_pstr h3)
          · exact Or.inr (mem_pstr h2)
      · exact Or.inr (mem_pstr h)

theorem matchTable_ent : MatcherEntOk matchTable := by
  intro l n r hl hf
  simp only [matchTable] at hf
  split at hf
  · rename_i n1 h1
    split at hf
    · rename_i n2 h2
      split at hf
      · rename_i n3 h3
        simp only [Option.some.injEq, Prod.mk.injEq] at hf
        obtain ⟨hn, hr⟩ := hf
        subst hr
        have htake : entityOk (l.take (n1 + n2 + n3)) = true := by
          obtain ⟨h3le, h3end⟩ := tableDataRowsLength_spec h3
          rcases h3end with hlenEq | ⟨pc, hlast, hnl⟩
          · have hok : l.length ≤ n1 + n2 + n3 := by
              have hdl : ((l.drop (n1 + n2) : PStr)).length = l.length - (n1 + n2) := by
                simp
              omega
            rw [List.take_of_length_le hok]
            exact hl
          · apply entityOk_append_left_of_last (b := l.drop (n1 + n2 + n3))
            · rw [List.take_append_drop]
              exact hl
            · intro q hq
              have hlast2 : (l.take (n1 + n2 + n3)).getLast? = some pc := by
                rw [List.take_add]
                exact getLast?_append_right hlast
              rw [hlast2] at hq
              simp only [Option.mem_def, Option.some.injEq] at hq
              subst hq
              rw [hnl]
              decide
        exact tableHtml_ent htake
      · cases hf
    · cases hf
  · cases hf

theorem matchTable_mem : MatcherMemOk matchTable := by
  intro l n r hf pc hpc
  simp only [matchTable] at hf
  split at hf
  · rename_i n1 h1
    split at hf
    · rename_i n2 h2
      split at hf
      · rename_i n3 h3
        simp only [Option.some.injEq, Prod.mk.injEq] at hf
        obtain ⟨hn, hr⟩ := hf
        subst hr
        rcases tableHtml_mem pc hpc with h | h
        · exact Or.inl (List.take_subset _ _ h)
        · exact Or.inr h
      · cases hf
    · cases hf
  · cases hf

/-- membership in an input-derived string. -/
theorem mem_inputStr {s : String} {pc : PChar} (h : pc ∈ inputStr s) :
    pc.1 ∈ s.data ∧ pc.2 = true := by
  simp only [inputStr, List.mem_map] at h
  obtain ⟨c, hc, rfl⟩ := h
  exact ⟨hc, rfl⟩

/-- the escape function establishes the entity invariant. -/
theorem escapeHtmlP_ent : ∀ t : List Char, entityOk (escapeHtmlP t) = true := by
  intro t
  induction t with
  | nil => rfl
  | cons c rest ih =>
    simp only [escapeHtmlP]
    split
    · exact entityOk_append (by decide) ih
    · split
      · exact entityOk_append (by decide) ih
      · split
        · exact entityOk_append (by decide) ih
        · rename_i h1 _ _
          refine entityOk_append ?_ ih
          simp only [entityOk, Bool.and_eq_true]
          exact ⟨by rw [if_neg h1], trivial⟩

/-- the escape function emits no raw angle bracket. -/
theorem escapeHtmlP_no_angle : ∀ t : List Char, ∀ pc ∈ escapeHtmlP t,
    pc.1 ≠ '<' ∧ pc.1 ≠ '>' := by
  intro t
  induction t with
  | nil =>
    intro pc h
    simp [escapeHtmlP] at h
  | cons c rest ih =>
    intro pc h
    simp only [escapeHtmlP] at h
    rcases List.mem_append.mp h with h | h
    · split at h
      · have hm := mem_inputStr h
        have hn : ∀ d ∈ ("&amp;").data, d ≠ '<' ∧ d ≠ '>' := by decide
        exact hn pc.1 hm.1
      · split at h
        · have hm := mem_inputStr h
          have hn : ∀ d ∈ ("&lt;").data, d ≠ '<' ∧ d ≠ '>' := by decide
          exact hn pc.1 hm.1
        · split at h
          · have hm := mem_inputStr h
            have hn : ∀ d ∈ ("&gt;").data, d ≠ '<' ∧ d ≠ '>' := by decide
            exact hn pc.1 hm.1
          · rename_i h1 h2 h3
            simp only [List.mem_singleton] at h
            subst h
            exact ⟨h2, h3⟩
    · exact ih pc h

/-! ### The line rules preserve the invariants -/

theorem lineWrap_ent (marker openT closeT : String)
    (ho : entityOk (pstr openT) = true) (hc : entityOk (pstr closeT) = true) :
    ∀ line, entityOk line = true →
      entityOk (lineWrap marker openT closeT line) = true := by
  intro line h
  simp only [lineWrap]
  split
  · exact entityOk_append (entityOk_append ho (entityOk_drop _ h)) hc
  · exact h

theorem lineWrap_mem (marker openT closeT : String) :
    ∀ line pc, pc ∈ lineWrap marker openT closeT line →
      pc ∈ line ∨ pc.2 = false := by
  intro line pc h
  simp only [lineWrap] at h
  split at h
  · rcases List.mem_append.mp h with h | h
    · rcases List.mem_append.mp h with h | h
      · exact Or.inr (mem_pstr h)
      · exact Or.inl (List.drop_subset _ _ h)
    · exact Or.inr (mem_pstr h)
  · exact Or.inl h

theorem lineOl_ent : ∀ line, entityOk line = true → entityOk (lineOl line) = true := by
  intro line h
  simp only [lineOl]
  split
  · exact entityOk_append (entityOk_append (by decide) (entityOk_drop _ h)) (by decide)
  · exact h

theorem lineOl_mem : ∀ line pc, pc ∈ lineOl line → pc ∈ line ∨ pc.2 = false := by
  intro line pc h
  simp only [lineOl] at h
  split at h
  · rcases List.mem_append.mp h with h | h
    · rcases List.mem_append.mp h with h | h
      · exact Or.inr (mem_pstr h)
      · exact Or.inl (List.drop_subset _ _ h)
    · exact Or.inr (mem_pstr h)
  · exact Or.inl h

theorem lineHr_ent : ∀ line, entityOk line = true → entityOk (lineHr line) = true := by
  intro line h
  simp only [lineHr]
  split
  · decide
  · exact h

theorem lineHr_mem : ∀ line pc, pc ∈ lineHr line → pc ∈ line ∨ pc.2 = false := by
  intro line pc h
  simp only [lineHr] at h
  split at h
  · exact Or.inr (mem_pstr h)
  · exact Or.inl h

/-! ### Composing the passes -/

/-- one global-replacement pass keeps both invariants. -/
theorem entMem_step (f : PStr → Option (Nat × PStr)) (hf1 : MatcherEntOk f)
    (hf2 : MatcherSkipsFollowers f) (hf3 : MatcherMemOk f) {base l : PStr}
    (h : entityOk l = true ∧ ∀ pc ∈ l, pc ∈ base ∨ pc.2 = false) :
    entityOk (scanReplace f l) = true ∧
      ∀ pc ∈ scanReplace f l, pc ∈ base ∨ pc.2 = false := by
  refine ⟨scanReplace_ent f hf1 hf2 h.1, ?_⟩
  intro pc hpc
  rcases scanReplace_mem f hf3 hpc with h2 | h2
  · exact h.2 pc h2
  · exact Or.inr h2

/-- one per-line pass keeps both invariants. -/
theorem entMem_lines (g : PStr → PStr)
    (hg1 : ∀ line, entityOk line = true → entityOk (g line) = true)
    (hg2 : ∀ line pc, pc ∈ g line → pc ∈ line ∨ pc.2 = false) {base l : PStr}
    (h : entityOk l = true ∧ ∀ pc ∈ l, pc ∈ base ∨ pc.2 = false) :
    entityOk (mapLines g l) = true ∧
      ∀ pc ∈ mapLines g l, pc ∈ base ∨ pc.2 = false := by
  refine ⟨mapLines_ent g hg1 h.1, ?_⟩
  intro pc hpc
  rcases mapLines_mem g hg2 hpc with h2 | h2
  · exact h.2 pc h2
  · exact Or.inr h2

/-- the paragraph wrapping step keeps both invariants. -/
theorem entMem_pwrap {base l : PStr}
    (h : entityOk l = true ∧ ∀ pc ∈ l, pc ∈ base ∨ pc.2 = false) :
    entityOk (pstr "<p>" ++ l ++ pstr "</p>") = true ∧
      ∀ pc ∈ pstr "<p>" ++ l ++ pstr "</p>", pc ∈ base ∨ pc.2 = false := by
  constructor
  · exact entityOk_append (entityOk_append (by decide) h.1) (by decide)
  · intro pc hpc
    rcases List.mem_append.mp hpc with h2 | h2
    · rcases List.mem_append.mp h2 with h2 | h2
      · exact Or.inr (mem_pstr h2)
      · exact h.2 pc h2
    · exact Or.inr (mem_pstr h2)

/-- closing tags of the cleanup rules all start with a less-than sign. -/
theorem head_lt_tags {tags : List String}
    (h : ∀ t ∈ tags, t.data.head? = some ('<' : Char)) :
    ∀ t ∈ tags, ∃ cs, t.data = '<' :: cs := by
  intro t ht
  have h2 := h t ht
  cases hd : t.data with
  | nil => rw [hd] at h2; cases h2
  | cons a cs =>
    rw [hd] at h2
    simp only [List.head?_cons, Option.some.injEq] at h2
    exact ⟨cs, by rw [h2]⟩

/-- every transformation pass of the renderer keeps the entity invariant and
introduces no character flagged as input-derived. -/
theorem mdTransforms_safe {l : PStr} (hl : entityOk l = true) :
    entityOk (mdTransforms l) = true ∧
      ∀ pc ∈ mdTransforms l, pc ∈ l ∨ pc.2 = false := by
  simp only [mdTransforms, passCodeBlock, passInlineCode, passBold, passItalic,
    passH4, passH3, passH2, passH1, passBlockquote, passLi, passUlWrap, passOl,
    passLinks, passHr, passTables, passParaBreaks, passEmptyP]
  refine entMem_step _ (matchCleanupClose_ent ["</table>"] (by decide))
    (matchCleanupClose_skips ["</table>"] (head_lt_tags (by decide)))
    (matchCleanupClose_mem ["</table>"]) ?_
  refine entMem_step _ (matchCleanupOpen_ent ["<table>"] (by decide))
    (matchCleanupOpen_skips ["<table>"]) (matchCleanupOpen_mem ["<table>"]) ?_
  refine entMem_step _ (matchCleanupClose_ent ["<hr>"] (by decide))
    (matchCleanupClose_skips ["<hr>"] (head_lt_tags (by decide)))
    (matchCleanupClose_mem ["<hr>"]) ?_
  refine entMem_step _ (matchCleanupOpen_ent ["<hr>"] (by decide))
    (matchCleanupOpen_skips ["<hr>"]) (matchCleanupOpen_mem ["<hr>"]) ?_
  refine entMem_step _ (matchCleanupClose_ent ["</blockquote>"] (by decide))
    (matchCleanupClose_skips ["</blockquote>"] (head_lt_tags (by decide)))
    (matchCleanupClose_mem ["</blockquote>"]) ?_
  refine entMem_step _ (matchCleanupOpen_ent ["<blockquote>"] (by decide))
    (matchCleanupOpen_skips ["<blockquote>"]) (matchCleanupOpen_mem ["<blockquote>"]) ?_
  refine entMem_step _ (matchCleanupClose_ent ["</pre>"] (by decide))
    (matchCleanupClose_skips ["</pre>"] (head_lt_tags (by decide)))
    (matchCleanupClose_mem ["</pre>"]) ?_
  refine entMem_step _ (matchCleanupOpen_ent ["<pre>"] (by decide))
    (matchCleanupOpen_skips ["<pre>"]) (matchCleanupOpen_mem ["<pre>"]) ?_
  refine entMem_step _ (matchCleanupClose_ent ["</ul>"] (by decide))
    (matchCleanupClose_skips ["</ul>"] (head_lt_tags (by decide)))
    (matchCleanupClose_mem ["</ul>"]) ?_
  refine entMem_step _ (matchCleanupOpen_ent ["<ul>"] (by decide))
    (matchCleanupOpen_skips ["<ul>"]) (matchCleanupOpen_mem ["<ul>"]) ?_
  refine entMem_step _
    (matchCleanupClose_ent ["</h1>", "</h2>", "</h3>", "</h4>"] (by decide))
    (matchCleanupClose_skips ["</h1>", "</h2>", "</h3>", "</h4>"]
      (head_lt_tags (by decide)))
    (matchCleanupClose_mem ["</h1>", "</h2>", "</h3>", "</h4>"]) ?_
  refine entMem_step _
    (matchCleanupOpen_ent ["<h1>", "<h2>", "<h3>", "<h4>"] (by decide))
    (matchCleanupOpen_skips ["<h1>", "<h2>", "<h3>", "<h4>"])
    (matchCleanupOpen_mem ["<h1>", "<h2>", "<h3>", "<h4>"]) ?_
  refine entMem_step _ matchCleanupEmptyP_ent matchCleanupEmptyP_skips
    matchCleanupEmptyP_mem ?_
  refine entMem_pwrap ?_
  refine entMem_step _ matchParaBreak_ent matchParaBreak_skips matchParaBreak_mem ?_
  refine entMem_step _ matchTable_ent matchTable_skips matchTable_mem ?_
  refine entMem_lines _ lineHr_ent lineHr_mem ?_
  refine entMem_step _ matchLink_ent matchLink_skips matchLink_mem ?_
  refine entMem_lines _ lineOl_ent lineOl_mem ?_
  refine entMem_step _ matchUlWrap_ent matchUlWrap_skips matchUlWrap_mem ?_
  refine entMem_lines _ (lineWrap_ent "- " "<li>" "</li>" (by decide) (by decide))
    (lineWrap_mem _ _ _) ?_
  refine entMem_lines _ (lineWrap_ent "&gt; " "<blockquote>" "</blockquote>"
    (by decide) (by decide)) (lineWrap_mem _ _ _) ?_
  refine entMem_lines _ (lineWrap_ent "# " "<h1>" "</h1>" (by decide) (by decide))
    (lineWrap_mem _ _ _) ?_
  refine entMem_lines _ (lineWrap_ent "## " "<h2>" "</h2>" (by decide) (by decide))
    (lineWrap_mem _ _ _) ?_
  refine entMem_lines _ (lineWrap_ent "### " "<h3>" "</h3>" (by decide) (by decide))
    (lineWrap_mem _ _ _) ?_
  refine entMem_lines _ (lineWrap_ent "#### " "<h4>" "</h4>" (by decide) (by decide))
    (lineWrap_mem _ _ _) ?_
  refine entMem_step _ matchItalic_ent matchItalic_skips matchItalic_mem ?_
  refine entMem_step _ matchBold_ent matchBold_skips matchBold_mem ?_
  refine entMem_step _ matchInlineCode_ent matchInlineCode_skips
    matchInlineCode_mem ?_
  refine entMem_step _ matchCodeBlock_ent matchCodeBlock_skips matchCodeBlock_mem ?_
  exact ⟨hl, fun pc hpc => Or.inl hpc⟩

/-- the renderer output satisfies the entity invariant, and every character
flagged as input-derived is a character of the escaped input. -/
theorem parseMarkdownP_safe (text : List Char) :
    entityOk (parseMarkdownP text) = true ∧
      ∀ pc ∈ parseMarkdownP text, pc ∈ escapeHtmlP text ∨ pc.2 = false := by
  simp only [parseMarkdownP]
  split
  · refine ⟨rfl, ?_⟩
    intro pc hpc
    simp at hpc
  · exact mdTransforms_safe (escapeHtmlP_ent text)

/-! ## Theorems: claim C10 -/

/-- C10: the renderer escapes the raw text before any transformation.  In the
provenance model every output character flagged as input-derived is a
character of the escaped input, hence is never a raw less-than or
greater-than sign, so every tag of the output is introduced by the renderer
itself; every ampersand of the output begins one of the complete entities
produced by the escape; the escape maps the ampersand, less-than and
greater-than characters to their entities; and a concrete input holding raw
markup is rendered fully escaped. -/
theorem c10_markdown_escape_safety (text : List Char) :
    (∀ pc ∈ parseMarkdownP text, pc.2 = true → pc ∈ escapeHtmlP text) ∧
    (∀ pc ∈ parseMarkdownP text, pc.2 = true → pc.1 ≠ '<' ∧ pc.1 ≠ '>') ∧
    entityOk (parseMarkdownP text) = true ∧
    escapeHtmlP ['&'] = inputStr "&amp;" ∧
    escapeHtmlP ['<'] = inputStr "&lt;" ∧
    escapeHtmlP ['>'] = inputStr "&gt;" ∧
    parseMarkdown "a<b>c&d" = "<p>a&lt;b&gt;c&amp;d</p>" := by
  obtain ⟨hent, hmem⟩ := parseMarkdownP_safe text
  have h1 : ∀ pc ∈ parseMarkdownP text, pc.2 = true → pc ∈ escapeHtmlP text := by
    intro pc hpc ht
    rcases hmem pc hpc with h | h
    · exact h
    · rw [ht] at h
      cases h
  refine ⟨h1, ?_, hent, by decide, by decide, by decide, by rfl⟩
  intro pc hpc ht
  exact escapeHtmlP_no_angle text pc (h1 pc hpc ht)

end ExplainAnything
